import Mathlib

/-!
# light2d: signed-distance ray marching of a single disc light

A shallow embedding of `src/basic.c` (`circleSDF`, `trace`, `sample`, `draw`)
and of `src/basic_multi_cores.c` (`draw_paralell`, which forks `PROCESS_NUM`
worker processes writing to one shared buffer).

Arithmetic model.  The C code computes in `float` (IEEE binary32).  Here a
`float` is an element of a linearly ordered field `F` and `+`, `-`, `*`, `/`
are exact; the rounding of the binary32 operations, infinities and NaN are
not modelled.  The decimal literals of the source denote the binary32 values
the compiler gives them (`0.1f` is `13421773 / 2^27`, `1e-6f` is
`8796093 / 2^43`, `6.28318530718f` is `13176795 / 2^21`).  The library
functions `sqrtf`, `cosf`, `sinf`, the constant `RAND_MAX` and the values
returned by `rand()` are not part of the repository and are parameters,
collected in `Libc`; a theorem stated for every `Libc` holds whatever `sqrtf`
returns, in particular for a correctly rounded one.  Hypotheses about
distances are hypotheses on the value the program computes, `circleSDF`.

Integer model.  The variables `int p`, `int y0 * width * 3` of
`draw_paralell` are 32-bit: `wrapInt` reduces the value of every such
operation into `[-2^31, 2^31)`.
-/

namespace Light2d

/-- The C library as the program sees it: `sqrtf`, `cosf`, `sinf` from
`math.h`, `RAND_MAX` from `stdlib.h`, and `rand k`, the value returned by the
`k`-th call of `rand()` (counting from zero) since program start. -/
structure Libc (F : Type) where
  sqrtf : F → F
  cosf : F → F
  sinf : F → F
  RAND_MAX : Nat
  rand : Nat → Nat

section Code

variable {F : Type} [LinearOrderedField F]

/-- `#define TWO_PI 6.28318530718f`: the binary32 value `13176795 / 2^21`. -/
def TWO_PI : F := 13176795 / 2097152

/-- `#define N 64` -/
def N : Nat := 64

/-- `#define MAX_STEP 10` -/
def MAX_STEP : Nat := 10

/-- `#define MAX_DISTANCE 2.0f` -/
def MAX_DISTANCE : F := 2

/-- `#define EPSILON 1e-6f`: the binary32 value `8796093 / 2^43`. -/
def EPSILON : F := 8796093 / 8796093022208

/-- `float circleSDF(float x, float y, float cx, float cy, float r)`,
basic.c lines 25-28. -/
def circleSDF (L : Libc F) (x y cx cy r : F) : F :=
  let ux := x - cx
  let uy := y - cy
  L.sqrtf (ux * ux + uy * uy) - r

/-- The signed distance evaluated by one iteration of the loop of `trace`,
basic.c line 48: `circleSDF(ox + dx * t, oy + dy * t, 0.5f, 0.5f, 0.1f)`;
`0.1f` is the binary32 value `13421773 / 2^27`. -/
def traceSD (L : Libc F) (ox oy dx dy t : F) : F :=
  circleSDF L (ox + dx * t) (oy + dy * t) (1 / 2) (1 / 2) (13421773 / 134217728)

/-- The loop of `trace`, basic.c lines 47-53, instrumented.  The first
argument is the number of iterations the counter still allows,
`MAX_STEP - i`; the second is `t`.  The result is the returned radiance
paired with the list of values `circleSDF` returned, in evaluation order. -/
def traceLoop (L : Libc F) (ox oy dx dy : F) : Nat → F → F × List F
  | 0, _ => (0, [])
  | n + 1, t =>
    if t < MAX_DISTANCE then
      let sd := traceSD L ox oy dx dy t
      if sd < EPSILON then (2, [sd])
      else
        let r := traceLoop L ox oy dx dy n (t + sd)
        (r.1, sd :: r.2)
    else (0, [])

/-- `float trace(float ox, float oy, float dx, float dy)`, basic.c lines
45-54: the loop started at `i = 0`, `t = 0.0f`. -/
def trace (L : Libc F) (ox oy dx dy : F) : F :=
  (traceLoop L ox oy dx dy MAX_STEP 0).1

/-- The values returned by the calls of `circleSDF` made by
`trace(ox, oy, dx, dy)`, in order. -/
def traceEvals (L : Libc F) (ox oy dx dy : F) : List F :=
  (traceLoop L ox oy dx dy MAX_STEP 0).2

/-- The angle of sub-sample `i`, basic.c line 73:
`TWO_PI * (i + (float)rand() / RAND_MAX) / N`, where the call of `rand()` is
the `c`-th of the program. -/
def sampleAngle (L : Libc F) (i c : Nat) : F :=
  TWO_PI * ((i : F) + (L.rand c : F) / (L.RAND_MAX : F)) / (N : F)

/-- The loop of `sample`, basic.c lines 70-75.  The first argument is the
number of iterations left, `N - i`; then `i`, the number `c` of calls of
`rand()` made so far, and `sum`.  Returns the final `sum` and call count. -/
def sampleLoop (L : Libc F) (x y : F) : Nat → Nat → Nat → F → F × Nat
  | 0, _, c, sum => (sum, c)
  | k + 1, i, c, sum =>
    let a := sampleAngle L i c
    sampleLoop L x y k (i + 1) (c + 1) (sum + trace L x y (L.cosf a) (L.sinf a))

/-- `float sample(float x, float y)`, basic.c lines 68-77, entered when
`rand()` has been called `c` times.  Returns `sum / N` and the number of
calls of `rand()` made when it returns. -/
def sample (L : Libc F) (x y : F) (c : Nat) : F × Nat :=
  let r := sampleLoop L x y N 0 c 0
  (r.1 / (N : F), r.2)

/-- Conversion `float` to `int`: the fractional part is discarded. -/
def truncToInt [FloorRing F] (a : F) : Int :=
  if 0 ≤ a then ⌊a⌋ else ⌈a⌉

/-- Conversion `int` to `unsigned char`: reduction modulo 256. -/
def toUChar (z : Int) : Nat :=
  (z % 256).toNat

/-- The byte stored for a sampled radiance `s`, basic.c line 94:
`(int)(s * 255.0f)` assigned to an `unsigned char`. -/
def quantise [FloorRing F] (s : F) : Nat :=
  toUChar (truncToInt (s * 255))

/-- The state of `draw` between two pixels: the offset of `p` from `img`,
the number of calls of `rand()` made so far, and the stores made to `img` so
far as (offset, byte) pairs, oldest first. -/
structure DrawState where
  p : Nat
  seed : Nat
  writes : List (Nat × Nat)

/-- One pixel, basic.c line 94 followed by `p += 3`:
`p[0] = p[1] = p[2] = (int)(sample((float)x / width, (float)y / height) * 255.0f)`.
The chained assignment stores to `p[2]`, then `p[1]`, then `p[0]`. -/
def drawPixel [FloorRing F] (L : Libc F) (width height y x : Nat)
    (st : DrawState) : DrawState :=
  let s := sample L ((x : F) / (width : F)) ((y : F) / (height : F)) st.seed
  let b := quantise s.1
  { p := st.p + 3
    seed := s.2
    writes := st.writes ++ [(st.p + 2, b), (st.p + 1, b), (st.p, b)] }

/-- The inner loop `for (x = ...; x < width; x++, p += 3)` of row `y`,
basic.c line 93.  The first argument is `width - x`. -/
def drawRow [FloorRing F] (L : Libc F) (width height y : Nat) :
    Nat → Nat → DrawState → DrawState
  | 0, _, st => st
  | k + 1, x, st => drawRow L width height y k (x + 1) (drawPixel L width height y x st)

/-- The outer loop `for (y = ...; y < ymax; y++)`, basic.c line 92.  The
first argument is the number of rows left, `ymax - y`. -/
def drawRows [FloorRing F] (L : Libc F) (width height : Nat) :
    Nat → Nat → DrawState → DrawState
  | 0, _, st => st
  | k + 1, y, st =>
    drawRows L width height k (y + 1) (drawRow L width height y width 0 st)

/-- `void draw(int width, int height, char filename[])`, basic.c lines
87-98, up to the call of the encoder `svpng`, entered when `rand()` has been
called `c` times: `p = img`, then both loops from `y = 0`. -/
def draw [FloorRing F] (L : Libc F) (width height c : Nat) : DrawState :=
  drawRows L width height height 0 { p := 0, seed := c, writes := [] }

/-- The contents of a buffer after a list of stores, applied oldest first. -/
def applyWrites (img : Nat → Nat) (ws : List (Nat × Nat)) : Nat → Nat :=
  ws.foldl (fun m w => Function.update m w.1 w.2) img

/-- The buffer `img` handed to the encoder by `draw`, where `init` is the
content of the freshly allocated memory. -/
def drawImage [FloorRing F] (L : Libc F) (width height c : Nat)
    (init : Nat → Nat) : Nat → Nat :=
  applyWrites init (draw L width height c).writes

/-- The loop invariant of `draw` after `m` pixels, for a buffer with initial
content `init`, an entry call count `c0` and pixel bytes `b`: `p` is `3 * m`
bytes past `img`, `rand()` has been called `N` times per pixel, the offsets
stored to so far are those below `3 * m`, each once, and the three bytes of
each pixel `j < m` hold `b j`. -/
def DrawInv (b : Nat → Nat) (init : Nat → Nat) (c0 m : Nat) (st : DrawState) : Prop :=
  st.p = 3 * m ∧ st.seed = c0 + N * m ∧
    (st.writes.map Prod.fst).Perm (List.range (3 * m)) ∧
    ∀ j, j < m → ∀ k, k < 3 → applyWrites init st.writes (3 * j + k) = b j

/-- `#define PROCESS_NUM 4`, basic_multi_cores.c line 14. -/
def PROCESS_NUM : Nat := 4

/-- One pixel of the sequential `draw` of basic_multi_cores.c, line 100 (the
same statement as basic.c line 94; `p` is a pointer into `img`, so the offset
is unbounded), with the function called for the radiance as a parameter
`smp` (given the scene coordinates and the number of calls of `rand()` made
so far, it returns the radiance and the new call count).  The program calls
`sample`: `smp = sample L`. -/
def drawPixelWith [FloorRing F] (smp : F → F → Nat → F × Nat) (width height y x : Nat)
    (st : DrawState) : DrawState :=
  let s := smp ((x : F) / (width : F)) ((y : F) / (height : F)) st.seed
  let b := quantise s.1
  { p := st.p + 3
    seed := s.2
    writes := st.writes ++ [(st.p + 2, b), (st.p + 1, b), (st.p, b)] }

/-- The inner loop `for (x = ...; x < width; x++, p += 3)` of row `y`,
basic_multi_cores.c line 99.  The first argument is `width - x`. -/
def drawRowWith [FloorRing F] (smp : F → F → Nat → F × Nat) (width height y : Nat) :
    Nat → Nat → DrawState → DrawState
  | 0, _, st => st
  | k + 1, x, st =>
    drawRowWith smp width height y k (x + 1) (drawPixelWith smp width height y x st)

/-- The outer loop `for (int y = 0; y < height; y++)`, basic_multi_cores.c
line 98, from any start row.  The first argument is the number of rows left. -/
def drawRowsWith [FloorRing F] (smp : F → F → Nat → F × Nat) (width height : Nat) :
    Nat → Nat → DrawState → DrawState
  | 0, _, st => st
  | k + 1, y, st =>
    drawRowsWith smp width height k (y + 1) (drawRowWith smp width height y width 0 st)

/-- `void draw(int width, int height, char *filename)`, basic_multi_cores.c
lines 94-102, up to the call of `svpng`, with `smp` called for the radiance. -/
def drawWith [FloorRing F] (smp : F → F → Nat → F × Nat) (width height c : Nat) :
    DrawState :=
  drawRowsWith smp width height height 0 { p := 0, seed := c, writes := [] }

/-- `INT_MAX` of the 32-bit `int`, limits.h. -/
def INT_MAX : Nat := 2147483647

/-- The result of an `int` operation whose mathematical value is `z`: `z`
reduced into `[-2^31, 2^31)` (32-bit two's complement; a signed overflow,
undefined in C, is taken to wrap). -/
@[irreducible]
def wrapInt (z : Int) : Int :=
  (z + 2147483648) % 4294967296 - 2147483648

/-- The state of a child of `draw_paralell` between two pixels: its index
`int p` into the shared buffer `shmptr`, the number of calls of `rand()` made
so far, and the stores made to `shmptr` so far as (index, byte) pairs, oldest
first. -/
structure ShmState where
  p : Int
  seed : Nat
  writes : List (Int × Nat)

/-- One pixel of a child, basic_multi_cores.c line 142 followed by `p += 3`:
`shmptr[p] = shmptr[p+1] = shmptr[p+2] = (int)(sample(...) * 255.0f)`, the
sums `p+1`, `p+2`, `p += 3` being `int` operations.  `smp` is the function
called for the radiance; the program calls `sample`. -/
def shmPixel [FloorRing F] (smp : F → F → Nat → F × Nat) (width height y x : Nat)
    (st : ShmState) : ShmState :=
  let s := smp ((x : F) / (width : F)) ((y : F) / (height : F)) st.seed
  let b := quantise s.1
  { p := wrapInt (st.p + 3)
    seed := s.2
    writes := st.writes ++ [(wrapInt (st.p + 2), b), (wrapInt (st.p + 1), b), (st.p, b)] }

/-- The inner loop `for (int x = 0; x < width; x++, p += 3)` of a child,
basic_multi_cores.c line 140.  The first argument is `width - x`. -/
def shmRow [FloorRing F] (smp : F → F → Nat → F × Nat) (width height y : Nat) :
    Nat → Nat → ShmState → ShmState
  | 0, _, st => st
  | k + 1, x, st => shmRow smp width height y k (x + 1) (shmPixel smp width height y x st)

/-- The outer loop `for (int y = y0; y < ymax; y++)` of a child,
basic_multi_cores.c line 138.  The first argument is `ymax - y`. -/
def shmRows [FloorRing F] (smp : F → F → Nat → F × Nat) (width height : Nat) :
    Nat → Nat → ShmState → ShmState
  | 0, _, st => st
  | k + 1, y, st =>
    shmRows smp width height k (y + 1) (shmRow smp width height y width 0 st)

/-- A state of the drawing loops with an unbounded offset, seen as a state of
a child: offsets reduced by `wrapInt`.  Used to transfer the invariants of
`drawRowsWith` to the children. -/
def toShm (st : DrawState) : ShmState :=
  { p := wrapInt (st.p : Int)
    seed := st.seed
    writes := st.writes.map (fun (w : Nat × Nat) => (wrapInt (w.1 : Int), w.2)) }

/-- The private copy of the coordinating process's variables `n`, `y0`, `p`
and of its random-generator state (number of calls of `rand()` made) that a
child process gets from `fork()`.  `p` is an `int`. -/
structure Fork where
  n : Nat
  y0 : Nat
  p : Int
  seed : Nat

/-- The state of the coordinating process in the fork loop of
`draw_paralell`: its variables `n`, `y0`, `p`, the number of calls of
`rand()` made, the indices at which it has read the array `line`, and the
children forked so far, oldest first. -/
structure Coord where
  n : Nat
  y0 : Nat
  p : Int
  seed : Nat
  reads : List Nat
  forks : List Fork

/-- The array `int line[PROCESS_NUM]` after the loop of basic_multi_cores.c
lines 116-119: `line[i] = per * i`. -/
def lineInit (per : Nat) : List Nat :=
  (List.range PROCESS_NUM).map (fun i => per * i)

/-- The read `line[n]`.  The array has `PROCESS_NUM` elements; `junk` is what
the memory after it holds. -/
def readLine (line : List Nat) (junk n : Nat) : Nat :=
  line.getD n junk

/-- One iteration of the fork loop as the coordinating process runs it,
basic_multi_cores.c lines 128 and 148-152: `fork()` hands the child the
current variables, then `n += 1; y0 = line[n]; p = y0 * width * 3;`, the two
products being `int` operations. -/
def forkStep (line : List Nat) (junk width : Nat) (st : Coord) : Coord :=
  { n := st.n + 1
    y0 := readLine line junk (st.n + 1)
    p := wrapInt (wrapInt ((readLine line junk (st.n + 1) : Int) * (width : Int)) * 3)
    seed := st.seed
    reads := st.reads ++ [st.n + 1]
    forks := st.forks ++ [{ n := st.n, y0 := st.y0, p := st.p, seed := st.seed }] }

/-- The loop `for (j = 0; j < PROCESS_NUM; j++)`, basic_multi_cores.c line
126.  The first argument is `PROCESS_NUM - j`. -/
def forkLoop (line : List Nat) (junk width : Nat) : Nat → Coord → Coord
  | 0, st => st
  | k + 1, st => forkLoop line junk width k (forkStep line junk width st)

/-- The coordinating process of `draw_paralell(width, height, filename)`,
basic_multi_cores.c lines 114-153, entered when `rand()` has been called `c`
times: `per = floor(height / PROCESS_NUM)`, the array `line`, `n = 0`,
`y0 = line[n]`, `p = 0`, then the fork loop. -/
def coordinator (width height c junk : Nat) : Coord :=
  forkLoop (lineInit (height / PROCESS_NUM)) junk width PROCESS_NUM
    { n := 0
      y0 := readLine (lineInit (height / PROCESS_NUM)) junk 0
      p := 0
      seed := c
      reads := [0]
      forks := [] }

/-- The bound `ymax` a child computes, basic_multi_cores.c line 137:
`(n == PROCESS_NUM) ? height : (y0 + per)`. -/
def workerYmax (height : Nat) (f : Fork) : Nat :=
  if f.n = PROCESS_NUM then height else f.y0 + height / PROCESS_NUM

/-- The body of a child process, basic_multi_cores.c lines 137-146: the two
drawing loops over the rows `y0 ≤ y < ymax`, storing to the shared buffer
from index `p`. -/
def worker [FloorRing F] (smp : F → F → Nat → F × Nat) (width height : Nat)
    (f : Fork) : ShmState :=
  shmRows smp width height (workerYmax height f - f.y0) f.y0
    { p := f.p, seed := f.seed, writes := [] }

/-- The state of a child process when its loops reach pixel `(x, y)`: the
rows `y0 ≤ y' < y` are complete and so are the columns `x' < x` of row `y`. -/
def workerAt [FloorRing F] (smp : F → F → Nat → F × Nat) (width height : Nat)
    (f : Fork) (y x : Nat) : ShmState :=
  shmRow smp width height y x 0
    (shmRows smp width height (y - f.y0) f.y0
      { p := f.p, seed := f.seed, writes := [] })

/-- `void draw_paralell(int width, int height, char *filename)`,
basic_multi_cores.c lines 112-153: the final states of the children, in the
order they were forked. -/
def draw_paralell [FloorRing F] (smp : F → F → Nat → F × Nat)
    (width height c junk : Nat) : List ShmState :=
  (coordinator width height c junk).forks.map (worker smp width height)

/-- The byte stored for the `j`-th pixel drawn by a process whose loops start
at row `y0` with `c0` calls of `rand()` made, when `smp` makes `K` calls of
`rand()`: column `j % width` of row `y0 + j / width`. -/
def loopByte [FloorRing F] (smp : F → F → Nat → F × Nat) (width height y0 c0 K j : Nat) :
    Nat :=
  quantise (smp (((j % width : Nat) : F) / (width : F))
    (((y0 + j / width : Nat) : F) / (height : F)) (c0 + K * j)).1

/-- The invariant of the drawing loops of a process that started at pixel
index `m0` with `c0` calls of `rand()` made, after `m` pixels, when `smp`
makes `K` calls of `rand()`: `p` is `3 * (m0 + m)`, the offsets stored to are
the `3 * m` offsets from `3 * m0`, each once, and the stores of the `j`-th
pixel, `j < m`, carry the byte `b j`. -/
def LoopInv (b : Nat → Nat) (m0 c0 K m : Nat) (st : DrawState) : Prop :=
  st.p = 3 * (m0 + m) ∧ st.seed = c0 + K * m ∧
    (st.writes.map Prod.fst).Perm (List.range' (3 * m0) (3 * m)) ∧
    ∀ j, j < m → ∀ k, k < 3 → (3 * (m0 + j) + k, b j) ∈ st.writes

/-- The point `(x, y)` of the Euclidean plane, for stating distances. -/
def point (x y : ℝ) : EuclideanSpace ℝ (Fin 2) := ![x, y]

end Code

/-! ## Helper lemmas -/

section Lemmas

variable {F : Type} [LinearOrderedField F]

theorem traceLoop_zero (L : Libc F) (ox oy dx dy t : F) :
    traceLoop L ox oy dx dy 0 t = (0, []) := rfl

theorem traceLoop_stop (L : Libc F) (ox oy dx dy t : F) (n : Nat)
    (h : ¬ t < MAX_DISTANCE) : traceLoop L ox oy dx dy n t = (0, []) := by
  cases n with
  | zero => rfl
  | succ n => simp [traceLoop, h]

theorem traceLoop_hit (L : Libc F) (ox oy dx dy t : F) (n : Nat)
    (ht : t < MAX_DISTANCE) (h : traceSD L ox oy dx dy t < EPSILON) :
    traceLoop L ox oy dx dy (n + 1) t = (2, [traceSD L ox oy dx dy t]) := by
  simp [traceLoop, ht, h]

theorem traceLoop_step (L : Libc F) (ox oy dx dy t : F) (n : Nat)
    (ht : t < MAX_DISTANCE) (h : ¬ traceSD L ox oy dx dy t < EPSILON) :
    traceLoop L ox oy dx dy (n + 1) t =
      ((traceLoop L ox oy dx dy n (t + traceSD L ox oy dx dy t)).1,
        traceSD L ox oy dx dy t ::
          (traceLoop L ox oy dx dy n (t + traceSD L ox oy dx dy t)).2) := by
  simp [traceLoop, ht, h]

/-- The loop returns `2` exactly when one of the evaluated distances is
below `EPSILON`, and otherwise returns `0`. -/
theorem traceLoop_spec (L : Libc F) (ox oy dx dy : F) (n : Nat) (t : F) :
    ((traceLoop L ox oy dx dy n t).1 = 0 ∨ (traceLoop L ox oy dx dy n t).1 = 2) ∧
    ((traceLoop L ox oy dx dy n t).1 = 2 ↔
      ∃ sd ∈ (traceLoop L ox oy dx dy n t).2, sd < EPSILON) := by
  induction n generalizing t with
  | zero => simp [traceLoop]
  | succ n ih =>
    by_cases ht : t < MAX_DISTANCE
    · by_cases h : traceSD L ox oy dx dy t < EPSILON
      · rw [traceLoop_hit L ox oy dx dy t n ht h]
        simp [h]
      · rw [traceLoop_step L ox oy dx dy t n ht h]
        obtain ⟨h1, h2⟩ := ih (t + traceSD L ox oy dx dy t)
        refine ⟨h1, ?_⟩
        simp only [List.mem_cons, exists_eq_or_imp, h, false_or]
        exact h2
    · rw [traceLoop_stop L ox oy dx dy t (n + 1) ht]
      simp

theorem trace_binary_aux (L : Libc F) (ox oy dx dy : F) :
    trace L ox oy dx dy = 0 ∨ trace L ox oy dx dy = 2 :=
  (traceLoop_spec L ox oy dx dy MAX_STEP 0).1

theorem traceLoop_length (L : Libc F) (ox oy dx dy : F) (n : Nat) (t : F) :
    (traceLoop L ox oy dx dy n t).2.length ≤ n := by
  induction n generalizing t with
  | zero => simp [traceLoop]
  | succ n ih =>
    by_cases ht : t < MAX_DISTANCE
    · by_cases h : traceSD L ox oy dx dy t < EPSILON
      · rw [traceLoop_hit L ox oy dx dy t n ht h]
        simp
      · rw [traceLoop_step L ox oy dx dy t n ht h]
        have := ih (t + traceSD L ox oy dx dy t)
        simp only [List.length_cons]
        omega
    · rw [traceLoop_stop L ox oy dx dy t (n + 1) ht]
      simp

/-! ### The exact square root -/

theorem dist_point (x y cx cy : ℝ) :
    dist (point x y) (point cx cy) =
      Real.sqrt ((x - cx) * (x - cx) + (y - cy) * (y - cy)) := by
  rw [EuclideanSpace.dist_eq]
  simp [Fin.sum_univ_two, sq, point, Real.dist_eq]

theorem circleSDF_real (L : Libc ℝ) (x y cx cy r : ℝ) :
    circleSDF { L with sqrtf := Real.sqrt } x y cx cy r =
      dist (point x y) (point cx cy) - r := by
  rw [dist_point]
  rfl

theorem traceSD_real (L : Libc ℝ) (ox oy dx dy t : ℝ) :
    traceSD { L with sqrtf := Real.sqrt } ox oy dx dy t =
      dist (point (ox + dx * t) (oy + dy * t)) (point (1 / 2) (1 / 2)) -
        13421773 / 134217728 := by
  unfold traceSD
  rw [circleSDF_real]

theorem traceSD_real_zero (L : Libc ℝ) (ox oy dx dy : ℝ) :
    traceSD { L with sqrtf := Real.sqrt } ox oy dx dy 0 =
      dist (point ox oy) (point (1 / 2) (1 / 2)) - 13421773 / 134217728 := by
  rw [traceSD_real]
  simp

/-! ### The sampling loop -/

theorem sampleLoop_spec {F : Type} [LinearOrderedField F] (L : Libc F) (x y : F)
    (k i c : Nat) (sum : F) :
    sampleLoop L x y k i c sum =
      (sum + ∑ j in Finset.range k,
          trace L x y (L.cosf (sampleAngle L (i + j) (c + j)))
            (L.sinf (sampleAngle L (i + j) (c + j))),
        c + k) := by
  induction k generalizing i c sum with
  | zero => simp [sampleLoop]
  | succ k ih =>
    rw [sampleLoop, ih, Finset.sum_range_succ']
    simp only [Nat.add_zero, Prod.mk.injEq]
    constructor
    · rw [add_assoc]
      congr 1
      rw [add_comm]
      congr 1
      apply Finset.sum_congr rfl
      intro j _
      have e1 : i + 1 + j = i + (j + 1) := by omega
      have e2 : c + 1 + j = c + (j + 1) := by omega
      rw [e1, e2]
    · omega

theorem sample_fst {F : Type} [LinearOrderedField F] (L : Libc F) (x y : F) (c : Nat) :
    (sample L x y c).1 =
      (∑ i in Finset.range N,
          trace L x y (L.cosf (sampleAngle L i (c + i)))
            (L.sinf (sampleAngle L i (c + i)))) / (N : F) := by
  simp [sample, sampleLoop_spec]

theorem sample_snd {F : Type} [LinearOrderedField F] (L : Libc F) (x y : F) (c : Nat) :
    (sample L x y c).2 = c + N := by
  simp [sample, sampleLoop_spec]

/-- When `trace` returns the same value in every direction, `sample` returns
that value. -/
theorem sample_of_trace_const {F : Type} [LinearOrderedField F] (L : Libc F) (x y v : F)
    (h : ∀ dx dy, trace L x y dx dy = v) (c : Nat) : (sample L x y c).1 = v := by
  rw [sample_fst]
  simp only [h, Finset.sum_const, Finset.card_range, nsmul_eq_mul]
  have : ((N : Nat) : F) ≠ 0 := by norm_num [N]
  field_simp

/-! ### The drawing loops -/

theorem applyWrites_append3 (init : Nat → Nat) (ws : List (Nat × Nat))
    (a1 a2 a3 : Nat × Nat) :
    applyWrites init (ws ++ [a1, a2, a3]) =
      Function.update (Function.update (Function.update (applyWrites init ws) a1.1 a1.2)
        a2.1 a2.2) a3.1 a3.2 := by
  simp [applyWrites, List.foldl_append]

theorem range_add_three (n : Nat) :
    List.range (n + 3) = List.range n ++ [n, n + 1, n + 2] := by
  rw [List.range_succ, List.range_succ, List.range_succ]
  simp

theorem drawInv_pixel {F : Type} [LinearOrderedField F] [FloorRing F] (L : Libc F)
    (width height y x : Nat) (b : Nat → Nat) (init : Nat → Nat) (c0 m : Nat)
    (st : DrawState) (h : DrawInv b init c0 m st)
    (hb : b m = quantise
      (sample L ((x : F) / (width : F)) ((y : F) / (height : F)) (c0 + N * m)).1) :
    DrawInv b init c0 (m + 1) (drawPixel L width height y x st) := by
  obtain ⟨hp, hs, hperm, hval⟩ := h
  refine ⟨?_, ?_, ?_, ?_⟩
  · simp only [drawPixel, hp]
    ring
  · simp only [drawPixel, sample_snd, hs]
    ring
  · simp only [drawPixel, List.map_append, List.map_cons, List.map_nil, hp]
    have e : 3 * (m + 1) = 3 * m + 3 := by ring
    rw [e, range_add_three]
    apply List.Perm.append hperm
    have p1 : [3 * m + 2, 3 * m + 1, 3 * m].Perm [3 * m, 3 * m + 1, 3 * m + 2] := by
      have := List.reverse_perm [3 * m, 3 * m + 1, 3 * m + 2]
      simpa using this
    exact p1
  · intro j hj k hk
    simp only [drawPixel, applyWrites_append3, hp, hs]
    by_cases hjm : j = m
    · subst hjm
      rw [← hb]
      have hk3 : k = 0 ∨ k = 1 ∨ k = 2 := by omega
      rcases hk3 with rfl | rfl | rfl <;> simp [Function.update]
    · have hlt : j < m := by omega
      have n1 : 3 * j + k ≠ 3 * m := by omega
      have n2 : 3 * j + k ≠ 3 * m + 1 := by omega
      have n3 : 3 * j + k ≠ 3 * m + 2 := by omega
      rw [Function.update_noteq n1, Function.update_noteq n2, Function.update_noteq n3]
      exact hval j hlt k hk

theorem drawRow_inv {F : Type} [LinearOrderedField F] [FloorRing F] (L : Libc F)
    (width height y : Nat) (init : Nat → Nat) (c0 : Nat) (k x : Nat) (st : DrawState)
    (hk : x + k = width)
    (h : DrawInv (fun j => quantise (sample L (((j % width : Nat) : F) / (width : F))
        (((j / width : Nat) : F) / (height : F)) (c0 + N * j)).1) init c0 (y * width + x) st) :
    DrawInv (fun j => quantise (sample L (((j % width : Nat) : F) / (width : F))
        (((j / width : Nat) : F) / (height : F)) (c0 + N * j)).1) init c0 (y * width + width)
      (drawRow L width height y k x st) := by
  induction k generalizing x st with
  | zero =>
    have : x = width := by omega
    subst this
    exact h
  | succ k ih =>
    have hx : x < width := by omega
    have hmod : (y * width + x) % width = x := by
      rw [Nat.add_comm, Nat.add_mul_mod_self_right]
      exact Nat.mod_eq_of_lt hx
    have hdiv : (y * width + x) / width = y := by
      rw [Nat.add_comm, Nat.add_mul_div_right _ _ (by omega), Nat.div_eq_of_lt hx]
      simp
    rw [drawRow]
    apply ih (x + 1) _ (by omega)
    have := drawInv_pixel L width height y x _ init c0 (y * width + x) st h
      (by simp only [hmod, hdiv])
    exact this

theorem drawRows_inv {F : Type} [LinearOrderedField F] [FloorRing F] (L : Libc F)
    (width height : Nat) (init : Nat → Nat) (c0 : Nat) (k y : Nat) (st : DrawState)
    (h : DrawInv (fun j => quantise (sample L (((j % width : Nat) : F) / (width : F))
        (((j / width : Nat) : F) / (height : F)) (c0 + N * j)).1) init c0 (y * width) st) :
    DrawInv (fun j => quantise (sample L (((j % width : Nat) : F) / (width : F))
        (((j / width : Nat) : F) / (height : F)) (c0 + N * j)).1) init c0 ((y + k) * width)
      (drawRows L width height k y st) := by
  induction k generalizing y st with
  | zero => exact h
  | succ k ih =>
    rw [drawRows]
    have e : (y + (k + 1)) * width = (y + 1 + k) * width := by ring
    rw [e]
    apply ih (y + 1)
    have e2 : (y + 1) * width = y * width + width := by ring
    rw [e2]
    exact drawRow_inv L width height y init c0 width 0 st (by omega) h

theorem draw_inv {F : Type} [LinearOrderedField F] [FloorRing F] (L : Libc F)
    (width height c0 : Nat) (init : Nat → Nat) :
    DrawInv (fun j => quantise (sample L (((j % width : Nat) : F) / (width : F))
        (((j / width : Nat) : F) / (height : F)) (c0 + N * j)).1) init c0 (height * width)
      (draw L width height c0) := by
  have h0 : DrawInv (fun j => quantise (sample L (((j % width : Nat) : F) / (width : F))
      (((j / width : Nat) : F) / (height : F)) (c0 + N * j)).1) init c0 (0 * width)
      { p := 0, seed := c0, writes := [] } := by
    refine ⟨by simp, by simp, by simp, ?_⟩
    intro j hj
    simp at hj
  have := drawRows_inv L width height init c0 height 0 _ h0
  simpa [draw] using this

/-! ### The fork loop of `draw_paralell` -/

theorem lineInit_eq (per : Nat) : lineInit per = [per * 0, per * 1, per * 2, per * 3] := rfl

/-! ### The drawing loops with the sampler as a parameter -/

theorem drawRowsWith_sample {F : Type} [LinearOrderedField F] [FloorRing F] (L : Libc F)
    (width height k y : Nat) (st : DrawState) :
    drawRowsWith (sample L) width height k y st = drawRows L width height k y st := by
  have hrow : ∀ (y k x : Nat) (st : DrawState),
      drawRowWith (sample L) width height y k x st = drawRow L width height y k x st := by
    intro y k
    induction k with
    | zero => intro x st; rfl
    | succ k ih =>
      intro x st
      rw [drawRowWith, drawRow, ih]
      rfl
  induction k generalizing y st with
  | zero => rfl
  | succ k ih => rw [drawRowsWith, drawRows, ih, hrow]

theorem drawWith_sample {F : Type} [LinearOrderedField F] [FloorRing F] (L : Libc F)
    (width height c : Nat) : drawWith (sample L) width height c = draw L width height c :=
  drawRowsWith_sample L width height height 0 _

theorem range'_add_three (s n : Nat) :
    List.range' s (n + 3) = List.range' s n ++ [s + n, s + n + 1, s + n + 2] := by
  rw [List.range'_concat, List.range'_concat, List.range'_concat]
  simp [Nat.add_assoc]

theorem loopInv_pixel {F : Type} [LinearOrderedField F] [FloorRing F]
    (smp : F → F → Nat → F × Nat) (K : Nat) (hK : ∀ x y c, (smp x y c).2 = c + K)
    (width height y x : Nat) (b : Nat → Nat) (m0 c0 m : Nat)
    (st : DrawState) (h : LoopInv b m0 c0 K m st)
    (hb : b m = quantise
      (smp ((x : F) / (width : F)) ((y : F) / (height : F)) (c0 + K * m)).1) :
    LoopInv b m0 c0 K (m + 1) (drawPixelWith smp width height y x st) := by
  obtain ⟨hp, hs, hperm, hmem⟩ := h
  refine ⟨?_, ?_, ?_, ?_⟩
  · simp only [drawPixelWith, hp]
    ring
  · simp only [drawPixelWith, hK, hs]
    ring
  · simp only [drawPixelWith, List.map_append, List.map_cons, List.map_nil, hp]
    have e : 3 * (m + 1) = 3 * m + 3 := by ring
    rw [e, range'_add_three]
    apply List.Perm.append hperm
    have e2 : 3 * (m0 + m) = 3 * m0 + 3 * m := by ring
    rw [e2]
    have := List.reverse_perm [3 * m0 + 3 * m, 3 * m0 + 3 * m + 1, 3 * m0 + 3 * m + 2]
    simpa using this
  · intro j hj k hk
    simp only [drawPixelWith, List.mem_append]
    by_cases hjm : j = m
    · subst hjm
      right
      rw [hb, ← hs, ← hp]
      have hk3 : k = 0 ∨ k = 1 ∨ k = 2 := by omega
      rcases hk3 with rfl | rfl | rfl <;> simp
    · left
      exact hmem j (by omega) k hk

theorem drawRowWith_inv {F : Type} [LinearOrderedField F] [FloorRing F]
    (smp : F → F → Nat → F × Nat) (K : Nat) (hK : ∀ x y c, (smp x y c).2 = c + K)
    (width height y0 c0 dy : Nat) (k x : Nat) (st : DrawState)
    (hk : x + k ≤ width)
    (h : LoopInv (loopByte smp width height y0 c0 K) (y0 * width) c0 K (dy * width + x) st) :
    LoopInv (loopByte smp width height y0 c0 K) (y0 * width) c0 K (dy * width + x + k)
      (drawRowWith smp width height (y0 + dy) k x st) := by
  induction k generalizing x st with
  | zero => exact h
  | succ k ih =>
    have hx : x < width := by omega
    have hmod : (dy * width + x) % width = x := by
      rw [Nat.add_comm, Nat.add_mul_mod_self_right]
      exact Nat.mod_eq_of_lt hx
    have hdiv : (dy * width + x) / width = dy := by
      rw [Nat.add_comm, Nat.add_mul_div_right _ _ (by omega), Nat.div_eq_of_lt hx]
      simp
    rw [drawRowWith]
    have e : dy * width + x + (k + 1) = dy * width + (x + 1) + k := by ring
    rw [e]
    apply ih (x + 1) _ (by omega)
    exact loopInv_pixel smp K hK width height (y0 + dy) x _ (y0 * width) c0
      (dy * width + x) st h (by simp only [loopByte, hmod, hdiv])

theorem drawRowsWith_inv {F : Type} [LinearOrderedField F] [FloorRing F]
    (smp : F → F → Nat → F × Nat) (K : Nat) (hK : ∀ x y c, (smp x y c).2 = c + K)
    (width height y0 c0 : Nat) (k dy : Nat) (st : DrawState)
    (h : LoopInv (loopByte smp width height y0 c0 K) (y0 * width) c0 K (dy * width) st) :
    LoopInv (loopByte smp width height y0 c0 K) (y0 * width) c0 K ((dy + k) * width)
      (drawRowsWith smp width height k (y0 + dy) st) := by
  induction k generalizing dy st with
  | zero => exact h
  | succ k ih =>
    rw [drawRowsWith]
    have e : (dy + (k + 1)) * width = (dy + 1 + k) * width := by ring
    have e1 : y0 + dy + 1 = y0 + (dy + 1) := by ring
    rw [e, e1]
    apply ih (dy + 1)
    have e2 : (dy + 1) * width = dy * width + 0 + width := by ring
    rw [e2]
    exact drawRowWith_inv smp K hK width height y0 c0 dy width 0 st (by omega) h

theorem loopInv_start (b : Nat → Nat) (y0 width c0 K p : Nat) (hp : p = y0 * width * 3) :
    LoopInv b (y0 * width) c0 K (0 * width) { p := p, seed := c0, writes := [] } := by
  refine ⟨?_, by simp, by simp, ?_⟩
  · simp only [hp]
    ring
  · intro j hj
    simp at hj

/-! ### Buffers as the result of stores -/

theorem sample_at_centre (L : Libc ℝ) (c : Nat) :
    (sample { L with sqrtf := Real.sqrt } (1 / 2) (1 / 2) c).1 = 2 := by
  apply sample_of_trace_const
  intro dx dy
  have hsd : traceSD { L with sqrtf := Real.sqrt } (1 / 2) (1 / 2) dx dy 0 < EPSILON := by
    rw [traceSD_real_zero, dist_self]
    norm_num [EPSILON]
  unfold trace MAX_STEP
  rw [traceLoop_hit _ _ _ _ _ 0 9 (by norm_num [MAX_DISTANCE]) hsd]

theorem quantise_two : quantise (2 : ℝ) = 254 := by
  have e : (2 : ℝ) * 255 = ((510 : Nat) : ℝ) := by norm_num
  simp only [quantise, truncToInt, e, Int.floor_natCast]
  simp [toUChar]

theorem drawImage_pixel {F : Type} [LinearOrderedField F] [FloorRing F] (L : Libc F)
    (width height c : Nat) (init : Nat → Nat) (x y k : Nat)
    (hx : x < width) (hy : y < height) (hk : k < 3) :
    drawImage L width height c init (3 * (y * width + x) + k) =
      quantise (sample L ((x : F) / (width : F)) ((y : F) / (height : F))
        (c + N * (y * width + x))).1 := by
  obtain ⟨_, _, _, hval⟩ := draw_inv L width height c init
  have hlt : y * width + x < height * width := by
    calc y * width + x < y * width + width := by omega
      _ = (y + 1) * width := by ring
      _ ≤ height * width := Nat.mul_le_mul_right _ hy
  have hmod : (y * width + x) % width = x := by
    rw [Nat.add_comm, Nat.add_mul_mod_self_right]
    exact Nat.mod_eq_of_lt hx
  have hdiv : (y * width + x) / width = y := by
    rw [Nat.add_comm, Nat.add_mul_div_right _ _ (by omega), Nat.div_eq_of_lt hx]
    simp
  have h0 := hval (y * width + x) hlt k hk
  simp only [hmod, hdiv] at h0
  exact h0

/-! ### Consecutive ranges of offsets, and the sequential `draw` -/

theorem traceSD_zero {F : Type} [LinearOrderedField F] (L : Libc F) (ox oy dx dy : F) :
    traceSD L ox oy dx dy 0 =
      circleSDF L ox oy (1 / 2) (1 / 2) (13421773 / 134217728) := by
  simp [traceSD]

theorem trace_of_first_hit {F : Type} [LinearOrderedField F] (L : Libc F) (ox oy dx dy : F)
    (h : circleSDF L ox oy (1 / 2) (1 / 2) (13421773 / 134217728) < EPSILON) :
    trace L ox oy dx dy = 2 := by
  rw [← traceSD_zero L ox oy dx dy] at h
  unfold trace MAX_STEP
  rw [traceLoop_hit L ox oy dx dy 0 9 (by norm_num [MAX_DISTANCE]) h]

theorem mul_self_le_of_away {F : Type} [LinearOrderedField F] (a d t : F) (ht : 0 ≤ t)
    (h : (0 ≤ a ∧ 0 ≤ d) ∨ (a ≤ 0 ∧ d ≤ 0)) : a * a ≤ (a + d * t) * (a + d * t) := by
  rcases h with ⟨ha, hd⟩ | ⟨ha, hd⟩
  · have h1 : 0 ≤ d * t := mul_nonneg hd ht
    exact mul_self_le_mul_self ha (by linarith)
  · have h1 : d * t ≤ 0 := mul_nonpos_of_nonpos_of_nonneg hd ht
    have h2 := mul_self_le_mul_self (show 0 ≤ -a by linarith)
      (show -a ≤ -(a + d * t) by linarith)
    linarith [neg_mul_neg a a, neg_mul_neg (a + d * t) (a + d * t)]

/-- With a monotone `sqrtf`, the signed distance computed along a ray whose
direction components do not point back towards the centre is never below the
one computed at the origin. -/
theorem traceSD_ge_of_away {F : Type} [LinearOrderedField F] (L : Libc F)
    (hmono : Monotone L.sqrtf) (ox oy dx dy t : F) (ht : 0 ≤ t)
    (hx : (1 / 2 ≤ ox ∧ 0 ≤ dx) ∨ (ox ≤ 1 / 2 ∧ dx ≤ 0))
    (hy : (1 / 2 ≤ oy ∧ 0 ≤ dy) ∨ (oy ≤ 1 / 2 ∧ dy ≤ 0)) :
    circleSDF L ox oy (1 / 2) (1 / 2) (13421773 / 134217728) ≤ traceSD L ox oy dx dy t := by
  have hx2 := mul_self_le_of_away (ox - 1 / 2) dx t ht
    (by rcases hx with ⟨h1, h2⟩ | ⟨h1, h2⟩
        · exact Or.inl ⟨by linarith, h2⟩
        · exact Or.inr ⟨by linarith, h2⟩)
  have hy2 := mul_self_le_of_away (oy - 1 / 2) dy t ht
    (by rcases hy with ⟨h1, h2⟩ | ⟨h1, h2⟩
        · exact Or.inl ⟨by linarith, h2⟩
        · exact Or.inr ⟨by linarith, h2⟩)
  have ex : ox + dx * t - 1 / 2 = ox - 1 / 2 + dx * t := by ring
  have ey : oy + dy * t - 1 / 2 = oy - 1 / 2 + dy * t := by ring
  unfold traceSD circleSDF
  simp only [ex, ey]
  have := hmono (add_le_add hx2 hy2)
  linarith

theorem traceLoop_of_away {F : Type} [LinearOrderedField F] (L : Libc F)
    (hmono : Monotone L.sqrtf) (ox oy dx dy : F)
    (h : EPSILON ≤ circleSDF L ox oy (1 / 2) (1 / 2) (13421773 / 134217728))
    (hx : (1 / 2 ≤ ox ∧ 0 ≤ dx) ∨ (ox ≤ 1 / 2 ∧ dx ≤ 0))
    (hy : (1 / 2 ≤ oy ∧ 0 ≤ dy) ∨ (oy ≤ 1 / 2 ∧ dy ≤ 0))
    (n : Nat) (t : F) (ht : 0 ≤ t) :
    (traceLoop L ox oy dx dy n t).1 = 0 := by
  have heps : (0 : F) < EPSILON := by norm_num [EPSILON]
  induction n generalizing t with
  | zero => rfl
  | succ n ih =>
    by_cases hm : t < MAX_DISTANCE
    · have hsd := traceSD_ge_of_away L hmono ox oy dx dy t ht hx hy
      have hge : ¬ traceSD L ox oy dx dy t < EPSILON := by
        intro hlt
        linarith
      rw [traceLoop_step L ox oy dx dy t n hm hge]
      apply ih
      linarith
    · rw [traceLoop_stop L ox oy dx dy t (n + 1) hm]

/-! ### 32-bit `int` arithmetic -/

theorem wrapInt_add_wrap (a b : Int) : wrapInt (wrapInt a + b) = wrapInt (a + b) := by
  unfold wrapInt
  omega

theorem wrapInt_mul3_wrap (a : Int) : wrapInt (wrapInt a * 3) = wrapInt (a * 3) := by
  unfold wrapInt
  omega

theorem wrapInt_of_le (a : Int) (h0 : 0 ≤ a) (h1 : a ≤ 2147483647) : wrapInt a = a := by
  unfold wrapInt
  omega

theorem wrapInt_le_self (a : Int) (h0 : 0 ≤ a) : wrapInt a ≤ a := by
  unfold wrapInt
  omega

theorem wrapInt_le_max (a : Int) : wrapInt a ≤ 2147483647 := by
  unfold wrapInt
  omega

theorem wrapInt_cast_of_le (t : Nat) (h : t ≤ 2147483647) : wrapInt (t : Int) = (t : Int) :=
  wrapInt_of_le _ (Int.natCast_nonneg t) (by exact_mod_cast h)

/-! ### The fork loop of `draw_paralell` -/

theorem coordinator_forks (width height c junk : Nat) :
    (coordinator width height c junk).forks =
      [(⟨0, height / PROCESS_NUM * 0,
          wrapInt ((height / PROCESS_NUM * 0 * width * 3 : Nat) : Int), c⟩ : Fork),
       (⟨1, height / PROCESS_NUM * 1,
          wrapInt ((height / PROCESS_NUM * 1 * width * 3 : Nat) : Int), c⟩ : Fork),
       (⟨2, height / PROCESS_NUM * 2,
          wrapInt ((height / PROCESS_NUM * 2 * width * 3 : Nat) : Int), c⟩ : Fork),
       (⟨3, height / PROCESS_NUM * 3,
          wrapInt ((height / PROCESS_NUM * 3 * width * 3 : Nat) : Int), c⟩ : Fork)] := by
  have hp : ∀ y0 : Nat, wrapInt (wrapInt ((y0 : Int) * (width : Int)) * 3) =
      wrapInt ((y0 * width * 3 : Nat) : Int) := by
    intro y0
    rw [wrapInt_mul3_wrap]
    push_cast
    rfl
  have h0 : (0 : Int) = wrapInt ((height / PROCESS_NUM * 0 * width * 3 : Nat) : Int) := by
    simp [wrapInt]
  simp only [coordinator, forkLoop, forkStep, lineInit_eq, readLine, PROCESS_NUM, hp,
    List.getD_cons_succ, List.getD_cons_zero, List.nil_append, List.cons_append,
    List.singleton_append, Nat.zero_add, Nat.reduceAdd]
  rw [h0]
  rfl

theorem coordinator_reads (width height c junk : Nat) :
    (coordinator width height c junk).reads = [0, 1, 2, 3, 4] := by
  simp [coordinator, forkLoop, forkStep, PROCESS_NUM]

theorem coordinator_seed (width height c junk : Nat) :
    (coordinator width height c junk).seed = c := by
  simp [coordinator, forkLoop, forkStep, PROCESS_NUM]

theorem coordinator_forks_range (width height c junk : Nat) :
    (coordinator width height c junk).forks =
      (List.range PROCESS_NUM).map (fun k =>
        (⟨k, height / PROCESS_NUM * k,
          wrapInt ((height / PROCESS_NUM * k * width * 3 : Nat) : Int), c⟩ : Fork)) := by
  rw [coordinator_forks]
  simp [PROCESS_NUM, List.range_succ]

theorem fork_mem (width height c junk k : Nat) (hk : k < PROCESS_NUM) :
    (⟨k, height / PROCESS_NUM * k,
      wrapInt ((height / PROCESS_NUM * k * width * 3 : Nat) : Int), c⟩ : Fork) ∈
      (coordinator width height c junk).forks := by
  rw [coordinator_forks_range]
  exact List.mem_map.2 ⟨k, List.mem_range.2 hk, rfl⟩

theorem fork_cases (width height c junk : Nat) (f : Fork)
    (hf : f ∈ (coordinator width height c junk).forks) :
    ∃ k, k < PROCESS_NUM ∧ f = (⟨k, height / PROCESS_NUM * k,
      wrapInt ((height / PROCESS_NUM * k * width * 3 : Nat) : Int), c⟩ : Fork) := by
  rw [coordinator_forks_range] at hf
  obtain ⟨k, hk, rfl⟩ := List.mem_map.1 hf
  exact ⟨k, List.mem_range.1 hk, rfl⟩

theorem fork_getElem (width height c junk k : Nat) (hk : k < PROCESS_NUM) :
    (coordinator width height c junk).forks[k]? =
      some (⟨k, height / PROCESS_NUM * k,
        wrapInt ((height / PROCESS_NUM * k * width * 3 : Nat) : Int), c⟩ : Fork) := by
  rw [coordinator_forks]
  have h4 : PROCESS_NUM = 4 := rfl
  rw [h4] at hk
  interval_cases k <;> rfl

theorem workerYmax_fork (height k y0 : Nat) (p : Int) (c : Nat) (hk : k < PROCESS_NUM) :
    workerYmax height ⟨k, y0, p, c⟩ = y0 + height / PROCESS_NUM := by
  have : k ≠ PROCESS_NUM := by omega
  simp [workerYmax, this]

/-! ### The loops of a child: the drawing loops with the offset reduced to `int` -/

theorem shmPixel_toShm {F : Type} [LinearOrderedField F] [FloorRing F]
    (smp : F → F → Nat → F × Nat) (width height y x : Nat) (st : DrawState) :
    shmPixel smp width height y x (toShm st) =
      toShm (drawPixelWith smp width height y x st) := by
  have e3 : wrapInt (wrapInt (st.p : Int) + 3) = wrapInt ((st.p + 3 : Nat) : Int) := by
    rw [wrapInt_add_wrap]
    push_cast
    rfl
  have e2 : wrapInt (wrapInt (st.p : Int) + 2) = wrapInt ((st.p + 2 : Nat) : Int) := by
    rw [wrapInt_add_wrap]
    push_cast
    rfl
  have e1 : wrapInt (wrapInt (st.p : Int) + 1) = wrapInt ((st.p + 1 : Nat) : Int) := by
    rw [wrapInt_add_wrap]
    push_cast
    rfl
  simp only [shmPixel, toShm, drawPixelWith, List.map_append, List.map_cons, List.map_nil,
    e1, e2, e3]

theorem shmRow_toShm {F : Type} [LinearOrderedField F] [FloorRing F]
    (smp : F → F → Nat → F × Nat) (width height y k x : Nat) (st : DrawState) :
    shmRow smp width height y k x (toShm st) =
      toShm (drawRowWith smp width height y k x st) := by
  induction k generalizing x st with
  | zero => rfl
  | succ k ih => rw [shmRow, drawRowWith, shmPixel_toShm, ih]

theorem shmRows_toShm {F : Type} [LinearOrderedField F] [FloorRing F]
    (smp : F → F → Nat → F × Nat) (width height k y : Nat) (st : DrawState) :
    shmRows smp width height k y (toShm st) =
      toShm (drawRowsWith smp width height k y st) := by
  induction k generalizing y st with
  | zero => rfl
  | succ k ih => rw [shmRows, drawRowsWith, shmRow_toShm, ih]

theorem toShm_offsets (st : DrawState) :
    (toShm st).writes.map Prod.fst =
      (st.writes.map Prod.fst).map (fun (t : Nat) => wrapInt (t : Int)) := by
  show List.map Prod.fst
    (List.map (fun (w : Nat × Nat) => (wrapInt (w.1 : Int), w.2)) st.writes) = _
  rw [List.map_map, List.map_map]
  rfl

/-- The `k`-th child is the image under `toShm` of the drawing loops run
over `per` rows from row `per * k`, offset `per * k * width * 3`. -/
theorem worker_eq {F : Type} [LinearOrderedField F] [FloorRing F]
    (smp : F → F → Nat → F × Nat) (width height c k : Nat) (hk : k < PROCESS_NUM) :
    worker smp width height (⟨k, height / PROCESS_NUM * k,
        wrapInt ((height / PROCESS_NUM * k * width * 3 : Nat) : Int), c⟩ : Fork) =
      toShm (drawRowsWith smp width height (height / PROCESS_NUM) (height / PROCESS_NUM * k)
        (⟨height / PROCESS_NUM * k * width * 3, c, []⟩ : DrawState)) := by
  unfold worker
  rw [workerYmax_fork height k _ _ _ hk]
  have e : height / PROCESS_NUM * k + height / PROCESS_NUM - height / PROCESS_NUM * k
      = height / PROCESS_NUM := Nat.add_sub_cancel_left _ _
  simp only [e]
  rw [← shmRows_toShm]
  rfl

theorem workerAt_eq {F : Type} [LinearOrderedField F] [FloorRing F]
    (smp : F → F → Nat → F × Nat) (width height c k dy x : Nat) :
    workerAt smp width height (⟨k, height / PROCESS_NUM * k,
        wrapInt ((height / PROCESS_NUM * k * width * 3 : Nat) : Int), c⟩ : Fork)
        (height / PROCESS_NUM * k + dy) x =
      toShm (drawRowWith smp width height (height / PROCESS_NUM * k + dy) x 0
        (drawRowsWith smp width height dy (height / PROCESS_NUM * k)
          (⟨height / PROCESS_NUM * k * width * 3, c, []⟩ : DrawState))) := by
  unfold workerAt
  have e : height / PROCESS_NUM * k + dy - height / PROCESS_NUM * k = dy :=
    Nat.add_sub_cancel_left _ _
  simp only [e]
  rw [← shmRow_toShm, ← shmRows_toShm]
  rfl

/-- The drawing loops run over `per` rows of `width` pixels from row
`per * k`. -/
theorem rows_inv {F : Type} [LinearOrderedField F] [FloorRing F]
    (smp : F → F → Nat → F × Nat) (K : Nat) (hK : ∀ x y c, (smp x y c).2 = c + K)
    (width height c k : Nat) :
    LoopInv (loopByte smp width height (height / PROCESS_NUM * k) c K)
      (height / PROCESS_NUM * k * width) c K (height / PROCESS_NUM * width)
      (drawRowsWith smp width height (height / PROCESS_NUM) (height / PROCESS_NUM * k)
        (⟨height / PROCESS_NUM * k * width * 3, c, []⟩ : DrawState)) := by
  have h0 := loopInv_start (loopByte smp width height (height / PROCESS_NUM * k) c K)
    (height / PROCESS_NUM * k) width c K (height / PROCESS_NUM * k * width * 3) rfl
  have := drawRowsWith_inv smp K hK width height (height / PROCESS_NUM * k) c
    (height / PROCESS_NUM) 0 _ h0
  simpa using this

/-- The drawing loops when they reach column `x` of the `dy`-th row from row
`per * k`. -/
theorem rowsAt_inv {F : Type} [LinearOrderedField F] [FloorRing F]
    (smp : F → F → Nat → F × Nat) (K : Nat) (hK : ∀ x y c, (smp x y c).2 = c + K)
    (width height c k dy x : Nat) (hx : x ≤ width) :
    LoopInv (loopByte smp width height (height / PROCESS_NUM * k) c K)
      (height / PROCESS_NUM * k * width) c K (dy * width + x)
      (drawRowWith smp width height (height / PROCESS_NUM * k + dy) x 0
        (drawRowsWith smp width height dy (height / PROCESS_NUM * k)
          (⟨height / PROCESS_NUM * k * width * 3, c, []⟩ : DrawState))) := by
  have h0 := loopInv_start (loopByte smp width height (height / PROCESS_NUM * k) c K)
    (height / PROCESS_NUM * k) width c K (height / PROCESS_NUM * k * width * 3) rfl
  have h1 := drawRowsWith_inv smp K hK width height (height / PROCESS_NUM * k) c dy 0 _ h0
  simp only [Nat.zero_add, Nat.add_zero] at h1
  have h2 := drawRowWith_inv smp K hK width height (height / PROCESS_NUM * k) c dy x 0 _
    (by omega) (by simpa using h1)
  simpa using h2

/-- The indices the `k`-th child stores to are the offsets
`k * (per * width) * 3 ≤ t < (k + 1) * (per * width) * 3` reduced to `int`. -/
theorem worker_writes_mem {F : Type} [LinearOrderedField F] [FloorRing F]
    (smp : F → F → Nat → F × Nat) (K : Nat) (hK : ∀ x y c, (smp x y c).2 = c + K)
    (width height c k : Nat) (o : Int) (hk : k < PROCESS_NUM) :
    o ∈ (worker smp width height (⟨k, height / PROCESS_NUM * k,
        wrapInt ((height / PROCESS_NUM * k * width * 3 : Nat) : Int), c⟩ : Fork)
        ).writes.map Prod.fst ↔
      ∃ t : Nat, k * (height / PROCESS_NUM * width) * 3 ≤ t ∧
        t < (k + 1) * (height / PROCESS_NUM * width) * 3 ∧ o = wrapInt (t : Int) := by
  obtain ⟨_, _, hperm, _⟩ := rows_inv smp K hK width height c k
  have e1 : 3 * (height / PROCESS_NUM * k * width) =
      k * (height / PROCESS_NUM * width) * 3 := by ring
  have e2 : k * (height / PROCESS_NUM * width) * 3 + 3 * (height / PROCESS_NUM * width) =
      (k + 1) * (height / PROCESS_NUM * width) * 3 := by ring
  rw [worker_eq smp width height c k hk, toShm_offsets, List.mem_map]
  constructor
  · rintro ⟨t, ht, rfl⟩
    rw [hperm.mem_iff, List.mem_range'_1, e1, e2] at ht
    exact ⟨t, ht.1, ht.2, rfl⟩
  · rintro ⟨t, h1, h2, rfl⟩
    refine ⟨t, ?_, rfl⟩
    rw [hperm.mem_iff, List.mem_range'_1, e1, e2]
    exact ⟨h1, h2⟩

theorem worker_mem_paralell {F : Type} [LinearOrderedField F] [FloorRing F]
    (smp : F → F → Nat → F × Nat) (width height c junk k : Nat) (hk : k < PROCESS_NUM) :
    worker smp width height (⟨k, height / PROCESS_NUM * k,
        wrapInt ((height / PROCESS_NUM * k * width * 3 : Nat) : Int), c⟩ : Fork) ∈
      draw_paralell smp width height c junk :=
  List.mem_map.2 ⟨_, fork_mem width height c junk k hk, rfl⟩

end Lemmas

/-! ## The claims -/

section Claims

variable {F : Type} [LinearOrderedField F]

/-- C3: `trace` returns `0.0` or `2.0`, and it returns `2.0` exactly when some
iteration of its loop evaluates `circleSDF` of the candidate point against the
light `(0.5, 0.5, 0.1)` to a value less than `EPSILON`. -/
theorem trace_binary (L : Libc F) (ox oy dx dy : F) :
    (trace L ox oy dx dy = 0 ∨ trace L ox oy dx dy = 2) ∧
      (trace L ox oy dx dy = 2 ↔ ∃ sd ∈ traceEvals L ox oy dx dy, sd < EPSILON) :=
  traceLoop_spec L ox oy dx dy MAX_STEP 0

/-- C4: `trace` is a total function (no error result) and evaluates
`circleSDF` at most `MAX_STEP = 10` times, for every origin and direction. -/
theorem trace_evals_le (L : Libc F) (ox oy dx dy : F) :
    (traceEvals L ox oy dx dy).length ≤ MAX_STEP ∧ MAX_STEP = 10 :=
  ⟨traceLoop_length L ox oy dx dy MAX_STEP 0, rfl⟩

/-- C7: for every point and every sequence of values returned by `rand()`,
`sample(x, y)` is the arithmetic mean of the `N = 64` results of `trace` in
the sampled directions, and lies in the closed interval `[0, 2]`. -/
theorem sample_mean_bounds (L : Libc F) (x y : F) (c : Nat) :
    (sample L x y c).1 =
        (∑ i in Finset.range 64,
            trace L x y (L.cosf (sampleAngle L i (c + i)))
              (L.sinf (sampleAngle L i (c + i)))) / 64 ∧
      0 ≤ (sample L x y c).1 ∧ (sample L x y c).1 ≤ 2 := by
  have hN : ((N : Nat) : F) = 64 := by norm_num [N]
  have e := sample_fst L x y c
  rw [hN] at e
  have hlo : ∀ i ∈ Finset.range N, (0 : F) ≤
      trace L x y (L.cosf (sampleAngle L i (c + i))) (L.sinf (sampleAngle L i (c + i))) := by
    intro i _
    rcases (trace_binary_aux L x y _ _) with h | h <;> rw [h]
    norm_num
  have hhi : ∀ i ∈ Finset.range N,
      trace L x y (L.cosf (sampleAngle L i (c + i))) (L.sinf (sampleAngle L i (c + i)))
        ≤ (2 : F) := by
    intro i _
    rcases (trace_binary_aux L x y _ _) with h | h <;> rw [h]
    norm_num
  have h0 := Finset.sum_nonneg hlo
  have h2 := Finset.sum_le_sum hhi
  simp only [Finset.sum_const, Finset.card_range, nsmul_eq_mul, hN] at h2
  refine ⟨e, ?_, ?_⟩
  · rw [e]
    exact div_nonneg h0 (by norm_num)
  · rw [e, div_le_iff₀ (by norm_num)]
    linarith

/-- C8: at the light's exact centre `(0.5, 0.5)`, `sample` returns a value
`≥ 1.9` (in fact `2.0`), for every sequence of values returned by `rand()`. -/
theorem sample_centre (L : Libc ℝ) (c : Nat) :
    19 / 10 ≤ (sample { L with sqrtf := Real.sqrt } (1 / 2) (1 / 2) c).1 ∧
      (sample { L with sqrtf := Real.sqrt } (1 / 2) (1 / 2) c).1 = 2 := by
  have h : (sample { L with sqrtf := Real.sqrt } (1 / 2) (1 / 2) c).1 = 2 := by
    apply sample_of_trace_const
    intro dx dy
    have hsd : traceSD { L with sqrtf := Real.sqrt } (1 / 2) (1 / 2) dx dy 0 < EPSILON := by
      rw [traceSD_real_zero, dist_self]
      norm_num [EPSILON]
    unfold trace MAX_STEP
    rw [traceLoop_hit _ _ _ _ _ 0 9 (by norm_num [MAX_DISTANCE]) hsd]
  rw [h]
  norm_num

/-- C10: for every width and height, the sequential `draw` stores to every
offset of the `width * height * 3` byte buffer exactly once and to no other,
and for every pixel `(x, y)` inside the image the three bytes at offsets
`(y * width + x) * 3`, `+ 1`, `+ 2` all hold the quantised value of
`sample(x / width, y / height)`, pixels being sampled in row-major order. -/
theorem draw_buffer [FloorRing F] (L : Libc F) (width height c : Nat)
    (init : Nat → Nat) :
    ((draw L width height c).writes.map Prod.fst).Perm (List.range (width * height * 3)) ∧
      ∀ x y, x < width → y < height →
        drawImage L width height c init ((y * width + x) * 3) =
            quantise (sample L ((x : F) / (width : F)) ((y : F) / (height : F))
              (c + 64 * (y * width + x))).1 ∧
          drawImage L width height c init ((y * width + x) * 3 + 1) =
            quantise (sample L ((x : F) / (width : F)) ((y : F) / (height : F))
              (c + 64 * (y * width + x))).1 ∧
          drawImage L width height c init ((y * width + x) * 3 + 2) =
            quantise (sample L ((x : F) / (width : F)) ((y : F) / (height : F))
              (c + 64 * (y * width + x))).1 := by
  obtain ⟨_, _, hperm, hval⟩ := draw_inv L width height c init
  constructor
  · have e : width * height * 3 = 3 * (height * width) := by ring
    rw [e]
    exact hperm
  · intro x y hx hy
    have hlt : y * width + x < height * width := by
      calc y * width + x < y * width + width := by omega
        _ = (y + 1) * width := by ring
        _ ≤ height * width := Nat.mul_le_mul_right _ hy
    have hmod : (y * width + x) % width = x := by
      rw [Nat.add_comm, Nat.add_mul_mod_self_right]
      exact Nat.mod_eq_of_lt hx
    have hdiv : (y * width + x) / width = y := by
      rw [Nat.add_comm, Nat.add_mul_div_right _ _ (by omega), Nat.div_eq_of_lt hx]
      simp
    have h0 := hval (y * width + x) hlt 0 (by omega)
    have h1 := hval (y * width + x) hlt 1 (by omega)
    have h2 := hval (y * width + x) hlt 2 (by omega)
    simp only [hmod, hdiv] at h0 h1 h2
    have e : (y * width + x) * 3 = 3 * (y * width + x) := by ring
    have eN : c + 64 * (y * width + x) = c + N * (y * width + x) := rfl
    unfold drawImage
    rw [e, eN]
    exact ⟨h0, h1, h2⟩

/-- Witness for C10: pixel `(1, 1)` of a 2 by 2 image over the rationals. -/
theorem draw_buffer_witness :
    drawImage (⟨fun a => a, fun _ => 1, fun _ => 0, 32767, fun _ => 0⟩ : Libc ℚ)
        2 2 0 (fun _ => 0) ((1 * 2 + 1) * 3) =
      quantise (sample (⟨fun a => a, fun _ => 1, fun _ => 0, 32767, fun _ => 0⟩ : Libc ℚ)
        (((1 : Nat) : ℚ) / ((2 : Nat) : ℚ)) (((1 : Nat) : ℚ) / ((2 : Nat) : ℚ))
        (0 + 64 * (1 * 2 + 1))).1 :=
  ((draw_buffer (⟨fun a => a, fun _ => 1, fun _ => 0, 32767, fun _ => 0⟩ : Libc ℚ)
    2 2 0 (fun _ => 0)).2 1 1 (by decide) (by decide)).1

/-- C11, evaluated on the code: in a 4 by 4 image pixel `(2, 2)` normalises to
`(0.5, 0.5)` and its sampled radiance is `2.0` for every sequence of `rand()`
values, but the byte `draw` stores in each of its three channels is `254`
(`510` reduced modulo `256`), not `255`. -/
theorem centre_pixel_byte (L : Libc ℝ) (c : Nat) (init : Nat → Nat) :
    ((2 : Nat) : ℝ) / ((4 : Nat) : ℝ) = 1 / 2 ∧
      (sample { L with sqrtf := Real.sqrt } (((2 : Nat) : ℝ) / ((4 : Nat) : ℝ))
        (((2 : Nat) : ℝ) / ((4 : Nat) : ℝ)) (c + 64 * (2 * 4 + 2))).1 = 2 ∧
      drawImage { L with sqrtf := Real.sqrt } 4 4 c init ((2 * 4 + 2) * 3) = 254 ∧
      drawImage { L with sqrtf := Real.sqrt } 4 4 c init ((2 * 4 + 2) * 3 + 1) = 254 ∧
      drawImage { L with sqrtf := Real.sqrt } 4 4 c init ((2 * 4 + 2) * 3 + 2) = 254 := by
  have hc : ((2 : Nat) : ℝ) / ((4 : Nat) : ℝ) = 1 / 2 := by norm_num
  have hb : ∀ k, k < 3 →
      drawImage { L with sqrtf := Real.sqrt } 4 4 c init (3 * (2 * 4 + 2) + k) = 254 := by
    intro k hk
    rw [drawImage_pixel _ 4 4 c init 2 2 k (by decide) (by decide) hk, hc, sample_at_centre,
      quantise_two]
  refine ⟨hc, ?_, hb 0 (by decide), hb 1 (by decide), hb 2 (by decide)⟩
  rw [hc, sample_at_centre]

/-- Counterexample to C6 as stated: the binary32 origin `(0.6f, 0.5)` is
strictly outside the disc (its distance from the centre is
`838861 / 2^23 > 0.1`), `(1, 0)` is the unit direction pointing away from the
centre, and `trace` returns `2.0`, because the first signed distance,
`3 / 2^27`, is below `EPSILON`. -/
theorem trace_away_near_surface :
    (1 / 10 : ℝ) < dist (point (5033165 / 8388608) (1 / 2)) (point (1 / 2) (1 / 2)) ∧
      (1 : ℝ) = (5033165 / 8388608 - 1 / 2) /
        dist (point (5033165 / 8388608) (1 / 2)) (point (1 / 2) (1 / 2)) ∧
      (0 : ℝ) = (1 / 2 - 1 / 2) /
        dist (point (5033165 / 8388608) (1 / 2)) (point (1 / 2) (1 / 2)) ∧
      circleSDF (⟨Real.sqrt, Real.cos, Real.sin, 2147483647, fun _ => 0⟩ : Libc ℝ)
        (5033165 / 8388608) (1 / 2) (1 / 2) (1 / 2) (13421773 / 134217728) =
          3 / 134217728 ∧
      trace (⟨Real.sqrt, Real.cos, Real.sin, 2147483647, fun _ => 0⟩ : Libc ℝ)
        (5033165 / 8388608) (1 / 2) 1 0 = 2 ∧
      trace (⟨Real.sqrt, Real.cos, Real.sin, 2147483647, fun _ => 0⟩ : Libc ℝ)
        (5033165 / 8388608) (1 / 2) 1 0 ≠ 0 := by
  have e : ((5033165 / 8388608 - 1 / 2) * (5033165 / 8388608 - 1 / 2) +
      (1 / 2 - 1 / 2) * (1 / 2 - 1 / 2) : ℝ) = (838861 / 8388608) * (838861 / 8388608) := by
    norm_num
  have hd : dist (point (5033165 / 8388608) (1 / 2)) (point (1 / 2) (1 / 2)) =
      838861 / 8388608 := by
    rw [dist_point, e]
    exact Real.sqrt_mul_self (by norm_num)
  have hc : circleSDF (⟨Real.sqrt, Real.cos, Real.sin, 2147483647, fun _ => 0⟩ : Libc ℝ)
      (5033165 / 8388608) (1 / 2) (1 / 2) (1 / 2) (13421773 / 134217728) =
        3 / 134217728 := by
    simp only [circleSDF]
    rw [e, Real.sqrt_mul_self (by norm_num)]
    norm_num
  have ht : trace (⟨Real.sqrt, Real.cos, Real.sin, 2147483647, fun _ => 0⟩ : Libc ℝ)
      (5033165 / 8388608) (1 / 2) 1 0 = 2 := by
    apply trace_of_first_hit
    rw [hc]
    norm_num [EPSILON]
  rw [hd, ht]
  refine ⟨by norm_num, by norm_num, by norm_num, hc, rfl, by norm_num⟩

/-- C6 (amended): from every origin where the signed distance the program
computes is at least `EPSILON`, along every direction whose components do not
point back towards the light centre (in particular the direction pointing
directly away from it), `trace` returns `0.0`; `sqrtf` is monotone. -/
theorem trace_away (L : Libc F) (hmono : Monotone L.sqrtf) (ox oy dx dy : F)
    (h : EPSILON ≤ circleSDF L ox oy (1 / 2) (1 / 2) (13421773 / 134217728))
    (hx : (1 / 2 ≤ ox ∧ 0 ≤ dx) ∨ (ox ≤ 1 / 2 ∧ dx ≤ 0))
    (hy : (1 / 2 ≤ oy ∧ 0 ≤ dy) ∨ (oy ≤ 1 / 2 ∧ dy ≤ 0)) :
    trace L ox oy dx dy = 0 :=
  traceLoop_of_away L hmono ox oy dx dy h hx hy MAX_STEP 0 le_rfl

/-- Witness for C6 (amended): origin `(1, 0.5)`, direction `(1, 0)`, the
exact square root. -/
theorem trace_away_witness :
    trace (⟨Real.sqrt, Real.cos, Real.sin, 2147483647, fun _ => 0⟩ : Libc ℝ)
      1 (1 / 2) 1 0 = 0 := by
  refine trace_away ⟨Real.sqrt, Real.cos, Real.sin, 2147483647, fun _ => 0⟩
    (fun a b hab => Real.sqrt_le_sqrt hab) 1 (1 / 2) 1 0 ?_
    (Or.inl ⟨by norm_num, by norm_num⟩) (Or.inl ⟨by norm_num, by norm_num⟩)
  have e : ((1 - 1 / 2) * (1 - 1 / 2) + (1 / 2 - 1 / 2) * (1 / 2 - 1 / 2) : ℝ) =
      (1 / 2) * (1 / 2) := by norm_num
  simp only [circleSDF]
  rw [e, Real.sqrt_mul_self (by norm_num)]
  norm_num [EPSILON]

/-- C9: at every point where the signed distance the program computes,
`circleSDF(x, y, 0.5f, 0.5f, 0.1f)`, is at least `MAX_DISTANCE`, `sample`
returns exactly `0.0`, for every sequence of values returned by `rand()`. -/
theorem sample_far (L : Libc F) (x y : F) (c : Nat)
    (h : MAX_DISTANCE ≤ circleSDF L x y (1 / 2) (1 / 2) (13421773 / 134217728)) :
    (sample L x y c).1 = 0 := by
  apply sample_of_trace_const
  intro dx dy
  have hsd := traceSD_zero L x y dx dy
  have hM : (MAX_DISTANCE : F) = 2 := rfl
  have hge : ¬ traceSD L x y dx dy 0 < EPSILON := by
    rw [hsd]
    intro hlt
    have : (EPSILON : F) < 2 := by norm_num [EPSILON]
    rw [hM] at h
    linarith
  unfold trace MAX_STEP
  rw [traceLoop_step _ _ _ _ _ 0 9 (by norm_num [MAX_DISTANCE]) hge]
  rw [traceLoop_stop]
  rw [hsd]
  linarith

/-- Witness for C9: the point `(3.5, 0.5)`, at computed signed distance
`3 - 0.1f`, with the exact square root. -/
theorem sample_far_witness :
    (sample (⟨Real.sqrt, Real.cos, Real.sin, 2147483647, fun _ => 0⟩ : Libc ℝ)
      (7 / 2) (1 / 2) 0).1 = 0 := by
  refine sample_far ⟨Real.sqrt, Real.cos, Real.sin, 2147483647, fun _ => 0⟩
    (7 / 2) (1 / 2) 0 ?_
  have e : ((7 / 2 - 1 / 2) * (7 / 2 - 1 / 2) + (1 / 2 - 1 / 2) * (1 / 2 - 1 / 2) : ℝ) =
      3 * 3 := by norm_num
  simp only [circleSDF]
  rw [e, Real.sqrt_mul_self (by norm_num)]
  norm_num [MAX_DISTANCE]

/-- Counterexample to C16 as stated: when `rand()` returns `RAND_MAX` the
jitter offset is `1`, not below `1`, and the angle of sub-sample `0` is the
upper end `TWO_PI * (0 + 1) / N` of its stratum, not below it. -/
theorem jitter_reaches_one :
    (2147483647 : Nat) ≤ 2147483647 ∧
      ((((⟨fun a => a, fun _ => 1, fun _ => 0, 2147483647, fun _ => 2147483647⟩ :
          Libc ℚ).rand 0 : Nat) : ℚ) /
        (((⟨fun a => a, fun _ => 1, fun _ => 0, 2147483647, fun _ => 2147483647⟩ :
          Libc ℚ).RAND_MAX : Nat) : ℚ) = 1) ∧
      ¬ (sampleAngle (⟨fun a => a, fun _ => 1, fun _ => 0, 2147483647,
          fun _ => 2147483647⟩ : Libc ℚ) 0 0 < TWO_PI * (((0 : Nat) : ℚ) + 1) / ((N : Nat) : ℚ)) := by
  refine ⟨le_rfl, by norm_num, ?_⟩
  norm_num [sampleAngle, TWO_PI, N]

/-- C16 (amended): for every sub-sample index `i` and every value
`r = rand()` with `0 ≤ r ≤ RAND_MAX`, the jitter offset `r / RAND_MAX` lies in
the closed interval `[0, 1]`, so the angle lies in the closed stratum between
`TWO_PI * i / N` and `TWO_PI * (i + 1) / N`, the values of the angle
expression at the offsets `0` and `1`. -/
theorem sampleAngle_stratum (L : Libc F) (i c : Nat) (hM : 0 < L.RAND_MAX)
    (hr : L.rand c ≤ L.RAND_MAX) :
    0 ≤ (L.rand c : F) / (L.RAND_MAX : F) ∧ (L.rand c : F) / (L.RAND_MAX : F) ≤ 1 ∧
      TWO_PI * (i : F) / (N : F) ≤ sampleAngle L i c ∧
      sampleAngle L i c ≤ TWO_PI * ((i : F) + 1) / (N : F) := by
  have hMF : (0 : F) < (L.RAND_MAX : F) := by exact_mod_cast hM
  have hrF : (L.rand c : F) ≤ (L.RAND_MAX : F) := by exact_mod_cast hr
  have h0 : (0 : F) ≤ (L.rand c : F) / (L.RAND_MAX : F) :=
    div_nonneg (Nat.cast_nonneg _) hMF.le
  have h1 : (L.rand c : F) / (L.RAND_MAX : F) ≤ 1 := (div_le_one hMF).2 hrF
  have hpi : (0 : F) < TWO_PI := by norm_num [TWO_PI]
  have hN : (0 : F) < (N : F) := by norm_num [N]
  refine ⟨h0, h1, ?_, ?_⟩
  · unfold sampleAngle
    apply div_le_div_of_nonneg_right _ hN.le
    apply mul_le_mul_of_nonneg_left _ hpi.le
    linarith
  · unfold sampleAngle
    apply div_le_div_of_nonneg_right _ hN.le
    apply mul_le_mul_of_nonneg_left _ hpi.le
    linarith

/-- Witness for C16 (amended): `rand()` returning `5` with `RAND_MAX = 32767`. -/
theorem sampleAngle_stratum_witness :
    TWO_PI * ((3 : Nat) : ℚ) / ((N : Nat) : ℚ) ≤
        sampleAngle (⟨fun a => a, fun _ => 1, fun _ => 0, 32767, fun _ => 5⟩ : Libc ℚ) 3 0 ∧
      sampleAngle (⟨fun a => a, fun _ => 1, fun _ => 0, 32767, fun _ => 5⟩ : Libc ℚ) 3 0 ≤
        TWO_PI * (((3 : Nat) : ℚ) + 1) / ((N : Nat) : ℚ) := by
  have h := sampleAngle_stratum
    (⟨fun a => a, fun _ => 1, fun _ => 0, 32767, fun _ => 5⟩ : Libc ℚ) 3 0
    (by decide) (by decide)
  exact ⟨h.2.2.1, h.2.2.2⟩

/-- C12: when `PROCESS_NUM` divides `height`, the row ranges `[y0, ymax)` of
the `PROCESS_NUM` children forked by `draw_paralell` are pairwise disjoint
and their union is `[0, height)`: every row belongs to exactly one child. -/
theorem paralell_rows_partition (width height c junk : Nat)
    (hdiv : PROCESS_NUM ∣ height) :
    (coordinator width height c junk).forks.length = PROCESS_NUM ∧
      ∀ y, (y < height ↔ ∃ f ∈ (coordinator width height c junk).forks,
          f.y0 ≤ y ∧ y < workerYmax height f) ∧
        ∀ f ∈ (coordinator width height c junk).forks,
          ∀ g ∈ (coordinator width height c junk).forks,
            f.y0 ≤ y → y < workerYmax height f → g.y0 ≤ y → y < workerYmax height g →
              f = g := by
  obtain ⟨q, rfl⟩ := hdiv
  have hq : PROCESS_NUM * q / PROCESS_NUM = q := Nat.mul_div_cancel_left q (by decide)
  have h4 : PROCESS_NUM = 4 := rfl
  refine ⟨by rw [coordinator_forks]; rfl, ?_⟩
  intro y
  constructor
  · constructor
    · intro hy
      have hk : y / q < PROCESS_NUM := by
        rw [Nat.div_lt_iff_lt_mul (by rw [h4] at hy; omega)]
        exact hy
      refine ⟨_, fork_mem width (PROCESS_NUM * q) c junk (y / q) hk, ?_⟩
      rw [workerYmax_fork _ _ _ _ _ hk, hq]
      have h1 := Nat.div_mul_le_self y q
      have h2 := Nat.lt_div_mul_add (a := y) (b := q) (by rw [h4] at hy; omega)
      simp only
      rw [Nat.mul_comm] at h1
      rw [Nat.mul_comm] at h2
      exact ⟨h1, h2⟩
    · rintro ⟨f, hf, h1, h2⟩
      obtain ⟨k, hk, rfl⟩ := fork_cases _ _ _ _ f hf
      rw [workerYmax_fork _ _ _ _ _ hk, hq] at h2
      rw [h4] at hk ⊢
      have : q * k + q ≤ 4 * q := by
        have := Nat.mul_le_mul_left q (show k + 1 ≤ 4 by omega)
        linarith
      omega
  · intro f hf g hg hf1 hf2 hg1 hg2
    obtain ⟨k, hk, rfl⟩ := fork_cases _ _ _ _ f hf
    obtain ⟨k', hk', rfl⟩ := fork_cases _ _ _ _ g hg
    rw [workerYmax_fork _ _ _ _ _ hk, hq] at hf2
    rw [workerYmax_fork _ _ _ _ _ hk', hq] at hg2
    simp only [hq] at hf1 hg1 ⊢
    have hkk : k = k' := by
      rcases Nat.lt_trichotomy k k' with h | h | h
      · have := Nat.mul_le_mul_left q (show k + 1 ≤ k' by omega)
        exfalso
        linarith
      · exact h
      · have := Nat.mul_le_mul_left q (show k' + 1 ≤ k by omega)
        exfalso
        linarith
    rw [hkk]

/-- Witness for C12: `height = 8`. -/
theorem paralell_rows_partition_witness :
    (coordinator 2 8 0 0).forks.length = PROCESS_NUM ∧
      ∀ y, (y < 8 ↔ ∃ f ∈ (coordinator 2 8 0 0).forks,
          f.y0 ≤ y ∧ y < workerYmax 8 f) ∧
        ∀ f ∈ (coordinator 2 8 0 0).forks,
          ∀ g ∈ (coordinator 2 8 0 0).forks,
            f.y0 ≤ y → y < workerYmax 8 f → g.y0 ≤ y → y < workerYmax 8 g → f = g :=
  paralell_rows_partition 2 8 0 0 (by decide)

/-- C13: no child of `draw_paralell` takes the branch `ymax = height` (its `n`
is never `PROCESS_NUM`), so every row `y` from
`PROCESS_NUM * floor(height / PROCESS_NUM)` on, in particular every such row
below `height` when `PROCESS_NUM` does not divide `height`, lies in no child's
row range, and no byte of such a row is stored to by any child. -/
theorem paralell_remainder_rows [FloorRing F] (L : Libc F)
    (width height c junk y : Nat) (hy : PROCESS_NUM * (height / PROCESS_NUM) ≤ y) :
    (∀ f ∈ (coordinator width height c junk).forks,
        f.n ≠ PROCESS_NUM ∧ workerYmax height f = f.y0 + height / PROCESS_NUM) ∧
      (∀ f ∈ (coordinator width height c junk).forks,
        ¬ (f.y0 ≤ y ∧ y < workerYmax height f)) ∧
      ∀ st ∈ draw_paralell (sample L) width height c junk,
        ∀ x, x < width → ∀ k, k < 3 →
          (((y * width + x) * 3 + k : Nat) : Int) ∉ st.writes.map Prod.fst := by
  have h4 : PROCESS_NUM = 4 := rfl
  refine ⟨?_, ?_, ?_⟩
  · intro f hf
    obtain ⟨k, hk, rfl⟩ := fork_cases _ _ _ _ f hf
    exact ⟨by simp only; omega, workerYmax_fork _ _ _ _ _ hk⟩
  · intro f hf
    obtain ⟨k, hk, rfl⟩ := fork_cases _ _ _ _ f hf
    rw [workerYmax_fork _ _ _ _ _ hk]
    simp only
    have := Nat.mul_le_mul_left (height / PROCESS_NUM) (show k + 1 ≤ 4 by omega)
    rw [h4] at hy ⊢
    rintro ⟨_, h2⟩
    have e : height / 4 * (k + 1) = height / 4 * k + height / 4 := by ring
    rw [h4, e] at this
    omega
  · intro st hst x _ k' _
    simp only [draw_paralell, List.mem_map] at hst
    obtain ⟨f, hf, rfl⟩ := hst
    obtain ⟨k, hk, rfl⟩ := fork_cases _ _ _ _ f hf
    rw [worker_writes_mem (sample L) N (sample_snd L) width height c k _ hk]
    rintro ⟨t, _, h2, ht⟩
    have hle := wrapInt_le_self (t : Int) (Int.natCast_nonneg t)
    rw [← ht] at hle
    have hle' : (y * width + x) * 3 + k' ≤ t := by exact_mod_cast hle
    clear ht hle
    have h3 : (k + 1) * (height / PROCESS_NUM * width) ≤ 4 * (height / PROCESS_NUM * width) :=
      Nat.mul_le_mul_right _ (by omega)
    have h1 : PROCESS_NUM * (height / PROCESS_NUM) * width ≤ y * width :=
      Nat.mul_le_mul_right _ hy
    have e : PROCESS_NUM * (height / PROCESS_NUM) * width =
        4 * (height / PROCESS_NUM * width) := by
      rw [h4]
      ring
    rw [e] at h1
    omega

/-- Witness for C13: `height = 5`; the last child never stores to the byte at
offset `(4 * 2 + 1) * 3 + 2` of row `4`. -/
theorem paralell_remainder_rows_witness :
    (((4 * 2 + 1) * 3 + 2 : Nat) : Int) ∉
      (worker (sample (⟨fun a => a, fun _ => 1, fun _ => 0, 32767, fun _ => 0⟩ : Libc ℚ)) 2 5
        (⟨3, 5 / PROCESS_NUM * 3,
          wrapInt ((5 / PROCESS_NUM * 3 * 2 * 3 : Nat) : Int), 0⟩ : Fork)).writes.map Prod.fst :=
  (paralell_remainder_rows (⟨fun a => a, fun _ => 1, fun _ => 0, 32767, fun _ => 0⟩ : Libc ℚ)
    2 5 0 0 4 (by decide)).2.2 _
    (worker_mem_paralell
      (sample (⟨fun a => a, fun _ => 1, fun _ => 0, 32767, fun _ => 0⟩ : Libc ℚ))
      2 5 0 0 3 (by decide))
    1 (by decide) 2 (by decide)

/-- C14 (amended): when `width * height * 3 ≤ INT_MAX`, the `k`-th child of
`draw_paralell` stores to exactly the indices of
`[k * per * width * 3, (k + 1) * per * width * 3)`,
`per = floor(height / PROCESS_NUM)`, each once; every such index is in
`[0, width * height * 3)`, and no other child stores to any of them. -/
theorem worker_offsets [FloorRing F] (L : Libc F) (width height c junk k : Nat)
    (hk : k < PROCESS_NUM) (hb : width * height * 3 ≤ INT_MAX) :
    ∃ f, (coordinator width height c junk).forks[k]? = some f ∧
      ((worker (sample L) width height f).writes.map Prod.fst).Perm
        ((List.range' (k * (height / PROCESS_NUM) * width * 3)
          (height / PROCESS_NUM * width * 3)).map (fun (t : Nat) => (t : Int))) ∧
      (∀ o ∈ (worker (sample L) width height f).writes.map Prod.fst,
        0 ≤ o ∧ o < ((width * height * 3 : Nat) : Int)) ∧
      ∀ k' f', k' < PROCESS_NUM → k' ≠ k →
        (coordinator width height c junk).forks[k']? = some f' →
        ∀ o ∈ (worker (sample L) width height f).writes.map Prod.fst,
          o ∉ (worker (sample L) width height f').writes.map Prod.fst := by
  have h4 : PROCESS_NUM = 4 := rfl
  have hI : INT_MAX = 2147483647 := rfl
  have htot : 4 * (height / PROCESS_NUM * width) * 3 ≤ 2147483647 := by
    have h1 : PROCESS_NUM * (height / PROCESS_NUM) * width ≤ height * width :=
      Nat.mul_le_mul_right _ (Nat.mul_div_le height PROCESS_NUM)
    have e : PROCESS_NUM * (height / PROCESS_NUM) * width =
        4 * (height / PROCESS_NUM * width) := by
      rw [h4]
      ring
    have e3 : width * height * 3 = height * width * 3 := by ring
    rw [e] at h1
    rw [e3, hI] at hb
    omega
  have hrange : ∀ j, j < PROCESS_NUM → ∀ t : Nat,
      t < (j + 1) * (height / PROCESS_NUM * width) * 3 → wrapInt (t : Int) = (t : Int) := by
    intro j hj t ht
    have h3 : (j + 1) * (height / PROCESS_NUM * width) ≤ 4 * (height / PROCESS_NUM * width) :=
      Nat.mul_le_mul_right _ (by omega)
    exact wrapInt_cast_of_le t (by omega)
  refine ⟨_, fork_getElem width height c junk k hk, ?_, ?_, ?_⟩
  · obtain ⟨_, _, hperm, _⟩ := rows_inv (sample L) N (sample_snd L) width height c k
    have e1 : k * (height / PROCESS_NUM) * width * 3 =
        3 * (height / PROCESS_NUM * k * width) := by ring
    have e2 : height / PROCESS_NUM * width * 3 = 3 * (height / PROCESS_NUM * width) := by ring
    rw [worker_eq (sample L) width height c k hk, toShm_offsets, e1, e2]
    have hcongr : (List.range' (3 * (height / PROCESS_NUM * k * width))
          (3 * (height / PROCESS_NUM * width))).map (fun (t : Nat) => (t : Int)) =
        (List.range' (3 * (height / PROCESS_NUM * k * width))
          (3 * (height / PROCESS_NUM * width))).map (fun (t : Nat) => wrapInt (t : Int)) := by
      apply List.map_congr_left
      intro t ht
      rw [List.mem_range'_1] at ht
      have e4 : 3 * (height / PROCESS_NUM * k * width) + 3 * (height / PROCESS_NUM * width) =
          (k + 1) * (height / PROCESS_NUM * width) * 3 := by ring
      rw [e4] at ht
      exact (hrange k hk t ht.2).symm
    rw [hcongr]
    exact hperm.map _
  · intro o ho
    rw [worker_writes_mem (sample L) N (sample_snd L) width height c k o hk] at ho
    obtain ⟨t, _, h2, rfl⟩ := ho
    rw [hrange k hk t h2]
    have h3 : (k + 1) * (height / PROCESS_NUM * width) ≤ 4 * (height / PROCESS_NUM * width) :=
      Nat.mul_le_mul_right _ (by omega)
    have h1 : PROCESS_NUM * (height / PROCESS_NUM) * width ≤ height * width :=
      Nat.mul_le_mul_right _ (Nat.mul_div_le height PROCESS_NUM)
    have e : PROCESS_NUM * (height / PROCESS_NUM) * width =
        4 * (height / PROCESS_NUM * width) := by
      rw [h4]
      ring
    have e3 : width * height * 3 = height * width * 3 := by ring
    rw [e] at h1
    have hlt : t < width * height * 3 := by
      rw [e3]
      omega
    exact ⟨Int.natCast_nonneg t, by exact_mod_cast hlt⟩
  · intro k' f' hk' hne hf' o ho
    rw [fork_getElem width height c junk k' hk'] at hf'
    cases hf'
    rw [worker_writes_mem (sample L) N (sample_snd L) width height c k o hk] at ho
    rw [worker_writes_mem (sample L) N (sample_snd L) width height c k' o hk']
    obtain ⟨t, h1, h2, rfl⟩ := ho
    rintro ⟨t', h1', h2', he⟩
    rw [hrange k hk t h2, hrange k' hk' t' h2'] at he
    have he' : t = t' := by exact_mod_cast he
    subst he'
    rcases Nat.lt_or_gt_of_ne hne with h | h
    · have := Nat.mul_le_mul_right (height / PROCESS_NUM * width) (show k' + 1 ≤ k by omega)
      omega
    · have := Nat.mul_le_mul_right (height / PROCESS_NUM * width) (show k + 1 ≤ k' by omega)
      omega

/-- Witness for C14 (amended): child `1` of a 2 by 8 image. -/
theorem worker_offsets_witness :
    ∃ f, (coordinator 2 8 0 0).forks[1]? = some f ∧
      ((worker (sample (⟨fun a => a, fun _ => 1, fun _ => 0, 32767, fun _ => 0⟩ : Libc ℚ))
        2 8 f).writes.map Prod.fst).Perm
        ((List.range' (1 * (8 / PROCESS_NUM) * 2 * 3) (8 / PROCESS_NUM * 2 * 3)).map
          (fun (t : Nat) => (t : Int))) := by
  obtain ⟨f, h1, h2, _⟩ := worker_offsets
    (⟨fun a => a, fun _ => 1, fun _ => 0, 32767, fun _ => 0⟩ : Libc ℚ) 2 8 0 0 1
    (by decide) (by decide)
  exact ⟨f, h1, h2⟩

/-- C19, evaluated on the code: the coordinating process of `draw_paralell`
reads the array `line`, of `PROCESS_NUM = 4` elements, at the indices
`0, 1, 2, 3, 4`; the last read, `y0 = line[n]` after the last fork, uses
`n = PROCESS_NUM`, outside the array. -/
theorem line_read_out_of_bounds (width height c junk : Nat) :
    (coordinator width height c junk).reads = [0, 1, 2, 3, 4] ∧
      (lineInit (height / PROCESS_NUM)).length = PROCESS_NUM ∧
      (coordinator width height c junk).n = PROCESS_NUM ∧
      (∃ n ∈ (coordinator width height c junk).reads, ¬ n < PROCESS_NUM) ∧
      (coordinator width height c junk).y0 = junk := by
  refine ⟨coordinator_reads width height c junk, rfl, ?_, ?_, ?_⟩
  · simp [coordinator, forkLoop, forkStep, PROCESS_NUM]
  · rw [coordinator_reads]
    exact ⟨4, by simp, by decide⟩
  · simp [coordinator, forkLoop, forkStep, PROCESS_NUM, readLine, lineInit_eq]

/-- Counterexample to C14 as stated: for a 32768 by 32768 image child `3`
starts from `p = 3 * 8192 * 32768 * 3 = 2415919104`, which does not fit an
`int`: its `p` is `-1879048192`, it stores to that negative index, and it
never stores to index `2415919104`, the first of the range the claim gives. -/
theorem worker_offsets_overflow :
    (coordinator 32768 32768 0 0).forks[3]? =
        some (⟨3, 24576, -1879048192, 0⟩ : Fork) ∧
      3 * (32768 / PROCESS_NUM) * 32768 * 3 = 2415919104 ∧
      (-1879048192 : Int) ∈
        (worker (sample (⟨fun a => a, fun _ => 1, fun _ => 0, 32767, fun _ => 0⟩ : Libc ℚ))
          32768 32768 (⟨3, 24576, -1879048192, 0⟩ : Fork)).writes.map Prod.fst ∧
      (2415919104 : Int) ∉
        (worker (sample (⟨fun a => a, fun _ => 1, fun _ => 0, 32767, fun _ => 0⟩ : Libc ℚ))
          32768 32768 (⟨3, 24576, -1879048192, 0⟩ : Fork)).writes.map Prod.fst := by
  have hw : wrapInt ((2415919104 : Nat) : Int) = -1879048192 := by
    unfold wrapInt
    norm_num
  have hf : (⟨3, 24576, -1879048192, 0⟩ : Fork) =
      (⟨3, 32768 / PROCESS_NUM * 3,
        wrapInt ((32768 / PROCESS_NUM * 3 * 32768 * 3 : Nat) : Int), 0⟩ : Fork) := by
    have e1 : 32768 / PROCESS_NUM * 3 = 24576 := by decide
    have e2 : 32768 / PROCESS_NUM * 3 * 32768 * 3 = 2415919104 := by decide
    rw [e2, e1, hw]
  refine ⟨?_, by decide, ?_, ?_⟩
  · rw [hf]
    exact fork_getElem 32768 32768 0 0 3 (by decide)
  · rw [hf, worker_writes_mem _ N (sample_snd _) 32768 32768 0 3 _ (by decide)]
    exact ⟨2415919104, by decide, by decide, hw.symm⟩
  · rw [hf, worker_writes_mem _ N (sample_snd _) 32768 32768 0 3 _ (by decide)]
    rintro ⟨t, _, _, ht⟩
    have := wrapInt_le_max (t : Int)
    rw [← ht] at this
    norm_num at this

/-- C20: the coordinating process of `draw_paralell` never calls `rand()`, so
every child starts from the same random-generator state, and for every child
`k`, column `x` and row offset `dy < per`, the calls of `rand()` that child
`k` makes for pixel `(x, k * per + dy)` are the same calls, returning the same
values, as those child `0` makes for pixel `(x, dy)`. -/
theorem workers_same_jitter [FloorRing F] (L : Libc F)
    (width height c junk k x dy : Nat) (hk : k < PROCESS_NUM) (hx : x < width)
    (hdy : dy < height / PROCESS_NUM) :
    (coordinator width height c junk).seed = c ∧
      ∃ f g, (coordinator width height c junk).forks[k]? = some f ∧
        (coordinator width height c junk).forks[0]? = some g ∧
        f.seed = c ∧ g.seed = c ∧
        (f.y0 ≤ k * (height / PROCESS_NUM) + dy ∧
          k * (height / PROCESS_NUM) + dy < workerYmax height f) ∧
        (workerAt (sample L) width height f (k * (height / PROCESS_NUM) + dy) x).seed =
          c + N * (dy * width + x) ∧
        (workerAt (sample L) width height g dy x).seed = c + N * (dy * width + x) ∧
        ∀ i, i < N →
          L.rand ((workerAt (sample L) width height f
              (k * (height / PROCESS_NUM) + dy) x).seed + i) =
            L.rand ((workerAt (sample L) width height g dy x).seed + i) := by
  have hf := rowsAt_inv (sample L) N (sample_snd L) width height c k dy x (le_of_lt hx)
  have hg := rowsAt_inv (sample L) N (sample_snd L) width height c 0 dy x (le_of_lt hx)
  have hfe := workerAt_eq (sample L) width height c k dy x
  have hge := workerAt_eq (sample L) width height c 0 dy x
  have e0 : height / PROCESS_NUM * 0 + dy = dy := by simp
  have ek : height / PROCESS_NUM * k + dy = k * (height / PROCESS_NUM) + dy := by ring
  rw [e0] at hge hg
  rw [ek] at hfe hf
  have hfs : (workerAt (sample L) width height (⟨k, height / PROCESS_NUM * k,
      wrapInt ((height / PROCESS_NUM * k * width * 3 : Nat) : Int), c⟩ : Fork)
      (k * (height / PROCESS_NUM) + dy) x).seed = c + N * (dy * width + x) := by
    rw [hfe]
    exact hf.2.1
  have hgs : (workerAt (sample L) width height (⟨0, height / PROCESS_NUM * 0,
      wrapInt ((height / PROCESS_NUM * 0 * width * 3 : Nat) : Int), c⟩ : Fork)
      dy x).seed = c + N * (dy * width + x) := by
    rw [hge]
    exact hg.2.1
  refine ⟨coordinator_seed width height c junk, _, _,
    fork_getElem width height c junk k hk,
    fork_getElem width height c junk 0 (by decide), rfl, rfl, ?_, hfs, hgs, ?_⟩
  · rw [workerYmax_fork _ _ _ _ _ hk]
    simp only
    rw [Nat.mul_comm k]
    omega
  · intro i _
    rw [hfs, hgs]

/-- Witness for C20: child `2`, column `1`, row offset `1` of a 2 by 8 image. -/
theorem workers_same_jitter_witness :
    (coordinator 2 8 0 0).seed = 0 ∧
      ∃ f g, (coordinator 2 8 0 0).forks[2]? = some f ∧
        (coordinator 2 8 0 0).forks[0]? = some g ∧
        (workerAt (sample (⟨fun a => a, fun _ => 1, fun _ => 0, 32767, fun n => n⟩ : Libc ℚ))
            2 8 f (2 * (8 / PROCESS_NUM) + 1) 1).seed =
          (workerAt (sample (⟨fun a => a, fun _ => 1, fun _ => 0, 32767, fun n => n⟩ : Libc ℚ))
            2 8 g 1 1).seed := by
  obtain ⟨h0, f, g, hf, hg, _, _, _, h1, h2, _⟩ := workers_same_jitter
    (⟨fun a => a, fun _ => 1, fun _ => 0, 32767, fun n => n⟩ : Libc ℚ)
    2 8 0 0 2 1 1 (by decide) (by decide) (by decide)
  exact ⟨h0, f, g, hf, hg, by rw [h1, h2]⟩

end Claims

end Light2d
